import Mathlib

/-!
# miniblog: field validators and the error catalog

A shallow embedding of

* `internal/apiserver/pkg/validation/validation.go`
  (`isValidUsername`, `isValidPassword`, `isValidEmail`, `isValidPhone`);
* `internal/pkg/errno/post.go` (`ErrPostNotFound`).

A Go `string` is a sequence of bytes.  The validators call
`regexp.MatchString`, which walks the string rune by rune (UTF-8 decoding,
invalid bytes become U+FFFD of width one), so the embedding contains the
decoder, a small regular-expression matcher with the constructs the six
patterns use, and the six patterns as syntax trees.
-/

namespace Miniblog

/-! ## Go strings and UTF-8 -/

/-- One byte of a Go string. -/
abbrev Byte := Fin 256

/-- Go `string`: an immutable sequence of bytes (`len` is the byte count). -/
abbrev GoString := List Byte

/-- Truncating conversion `byte(n)`. -/
def byte (n : Nat) : Byte := ⟨n % 256, Nat.mod_lt _ (by decide)⟩

/-- Constant `utf8.RuneError` (U+FFFD). -/
def RuneError : Nat := 0xFFFD

/-- Constant `utf8.MaxRune`. -/
def MaxRune : Nat := 0x10FFFF

/-- Encoded size announced by a lead byte (table `first` of `unicode/utf8`);
`0` stands for the invalid entries `xx`. -/
def runeSize (c : Nat) : Nat :=
  if c < 0x80 then 1
  else if c < 0xC2 then 0
  else if c ≤ 0xDF then 2
  else if c ≤ 0xEF then 3
  else if c ≤ 0xF4 then 4
  else 0

/-- Lower end of the accept range of the second byte (`acceptRanges[..].lo`). -/
def acceptLo (c : Nat) : Nat :=
  if c = 0xE0 then 0xA0 else if c = 0xF0 then 0x90 else 0x80

/-- Upper end of the accept range of the second byte (`acceptRanges[..].hi`). -/
def acceptHi (c : Nat) : Nat :=
  if c = 0xED then 0x9F else if c = 0xF4 then 0x8F else 0xBF

/-- Continuation byte test: `locb <= b && b <= hicb`. -/
def isCont (b : Nat) : Bool := decide (0x80 ≤ b) && decide (b ≤ 0xBF)

/-- Second byte test against the accept range selected by the lead byte. -/
def accepts (c b : Nat) : Bool := decide (acceptLo c ≤ b) && decide (b ≤ acceptHi c)

/-- Function `utf8.DecodeRuneInString`: the first rune of the string and its
width in bytes.  Masks and shifts are written arithmetically:
`b & 0x3F = b % 64`, `x << 6 = x * 64`, and `|` of disjoint bit fields is `+`. -/
def decodeRune : GoString → Nat × Nat
  | [] => (RuneError, 0)
  | p0 :: rest =>
    if p0.val < 0x80 then (p0.val, 1)
    else
      match runeSize p0.val, rest with
      | 2, b1 :: _ =>
        if accepts p0.val b1.val then ((p0.val % 32) * 64 + b1.val % 64, 2)
        else (RuneError, 1)
      | 3, b1 :: b2 :: _ =>
        if accepts p0.val b1.val && isCont b2.val then
          ((p0.val % 16) * 4096 + (b1.val % 64) * 64 + b2.val % 64, 3)
        else (RuneError, 1)
      | 4, b1 :: b2 :: b3 :: _ =>
        if accepts p0.val b1.val && isCont b2.val && isCont b3.val then
          ((p0.val % 8) * 262144 + (b1.val % 64) * 4096 + (b2.val % 64) * 64 + b3.val % 64, 4)
        else (RuneError, 1)
      | _, _ => (RuneError, 1)

/-- Runes of a string, the first `skip` bytes being the tail of the rune
decoded last. -/
def runesAux : Nat → GoString → List Nat
  | _, [] => []
  | k + 1, _ :: bs => runesAux k bs
  | 0, b :: bs => (decodeRune (b :: bs)).1 :: runesAux ((decodeRune (b :: bs)).2 - 1) bs

/-- The rune sequence the regexp engine reads from a string
(`inputString.step` applied from offset 0 to the end). -/
def runes (s : GoString) : List Nat := runesAux 0 s

/-- Function `utf8.AppendRune`: the UTF-8 encoding of a code point; surrogates
and values above `MaxRune` are encoded as `RuneError`. -/
def encodeRune (r : Nat) : GoString :=
  if r < 0x80 then [byte r]
  else if r < 0x800 then [byte (0xC0 + r / 64), byte (0x80 + r % 64)]
  else if MaxRune < r ∨ (0xD800 ≤ r ∧ r ≤ 0xDFFF) then [byte 0xEF, byte 0xBF, byte 0xBD]
  else if r < 0x10000 then
    [byte (0xE0 + r / 4096), byte (0x80 + r / 64 % 64), byte (0x80 + r % 64)]
  else
    [byte (0xF0 + r / 262144), byte (0x80 + r / 4096 % 64), byte (0x80 + r / 64 % 64),
      byte (0x80 + r % 64)]

/-- A string literal of the source: the UTF-8 bytes of its characters. -/
def lit (s : String) : GoString := s.data.flatMap (fun c => encodeRune c.toNat)

/-! ## Regular expressions (the fragment of RE2 syntax the patterns use) -/

/-- Syntax tree of a pattern. -/
inductive Regex where
  /-- a literal character -/
  | char (c : Nat)
  /-- a character class given by inclusive ranges, such as `[A-Za-z0-9_]` -/
  | cls (ranges : List (Nat × Nat))
  /-- `.` without the `s` flag: any character but newline -/
  | anyNotNL
  /-- `^` without the `m` flag: beginning of text -/
  | bol
  /-- `$` without the `m` flag: end of text -/
  | eol
  /-- concatenation -/
  | cat (r s : Regex)
  /-- repetition `r{min,max}`; `max = none` is `r{min,}` -/
  | rep (r : Regex) (min : Nat) (max : Option Nat)

/-- Membership of a rune in a class. -/
def inRanges (ranges : List (Nat × Nat)) (c : Nat) : Bool :=
  ranges.any (fun lh => decide (lh.1 ≤ c) && decide (c ≤ lh.2))

/-- A position of the matcher in the input: the number of runes before it and
the runes after it. -/
structure Pos where
  idx : Nat
  rest : List Nat
  deriving DecidableEq, Repr

/-- Consume one rune satisfying `p`. -/
def stepIf (p : Nat → Bool) (q : Pos) : List Pos :=
  match q.rest with
  | [] => []
  | x :: xs => if p x then [⟨q.idx + 1, xs⟩] else []

/-- Exactly `n` iterations of `f`. -/
def iterExact (f : Pos → List Pos) : Nat → Pos → List Pos
  | 0, q => [q]
  | n + 1, q => (f q).flatMap (iterExact f n)

/-- At most `n` iterations of `f`. -/
def iterUpTo (f : Pos → List Pos) : Nat → Pos → List Pos
  | 0, q => [q]
  | n + 1, q => q :: (f q).flatMap (iterUpTo f n)

/-- All positions at which a match of `r` that begins at `q` can end. -/
def Regex.run : Regex → Pos → List Pos
  | .char c, q => stepIf (fun x => x == c) q
  | .cls ranges, q => stepIf (inRanges ranges) q
  | .anyNotNL, q => stepIf (fun x => x != 10) q
  | .bol, q => if q.idx = 0 then [q] else []
  | .eol, q => if q.rest = [] then [q] else []
  | .cat r s, q => (r.run q).flatMap (fun m => s.run m)
  | .rep r min max, q =>
    (iterExact (fun m => r.run m) min q).flatMap (fun m =>
      iterUpTo (fun m1 => r.run m1) (match max with | some hi => hi - min | none => m.rest.length) m)

/-- Every position of the input, from `i` on: where an unanchored search may
begin. -/
def startsFrom : Nat → List Nat → List Pos
  | i, [] => [⟨i, []⟩]
  | i, x :: xs => ⟨i, x :: xs⟩ :: startsFrom (i + 1) xs

/-- Method `(*Regexp).MatchString`: does the string contain any match of the
pattern? -/
def MatchString (re : Regex) (s : GoString) : Bool :=
  (startsFrom 0 (runes s)).any (fun q => !(re.run q).isEmpty)

/-- An inclusive range of a character class, written with its end points. -/
def rng (a b : Char) : Nat × Nat := (a.toNat, b.toNat)

/-- A literal character of a pattern. -/
def chr (a : Char) : Regex := .char a.toNat

/-- Postfix `+`: one or more. -/
def Regex.plus (r : Regex) : Regex := .rep r 1 none

/-! ## The patterns of `validation.go` -/

/-- Pattern `^.{3,20}$` (package variable `lengthRegex`). -/
def lengthRegex : Regex :=
  .cat .bol (.cat (.rep .anyNotNL 3 (some 20)) .eol)

/-- Class `[A-Za-z0-9_]`. -/
def wordRanges : List (Nat × Nat) := [rng 'A' 'Z', rng 'a' 'z', rng '0' '9', rng '_' '_']

/-- Pattern `^[A-Za-z0-9_]+$` (package variable `validRegex`). -/
def validRegex : Regex :=
  .cat .bol (.cat (Regex.plus (.cls wordRanges)) .eol)

/-- Class `[A-Za-z]`. -/
def letterRanges : List (Nat × Nat) := [rng 'A' 'Z', rng 'a' 'z']

/-- Class `\d`, which in RE2 syntax is `[0-9]`. -/
def digitRanges : List (Nat × Nat) := [rng '0' '9']

/-- Pattern `[A-Za-z]` (local `letterPattern` of `isValidPassword`). -/
def letterPattern : Regex := .cls letterRanges

/-- Pattern `\d` (local `numberPattern` of `isValidPassword`). -/
def numberPattern : Regex := .cls digitRanges

/-- Class `[a-zA-Z0-9._%+-]`. -/
def localRanges : List (Nat × Nat) :=
  [rng 'a' 'z', rng 'A' 'Z', rng '0' '9', rng '.' '.', rng '_' '_', rng '%' '%', rng '+' '+',
    rng '-' '-']

/-- Class `[a-zA-Z0-9.-]`. -/
def domainRanges : List (Nat × Nat) :=
  [rng 'a' 'z', rng 'A' 'Z', rng '0' '9', rng '.' '.', rng '-' '-']

/-- Class `[a-zA-Z]`. -/
def alphaRanges : List (Nat × Nat) := [rng 'a' 'z', rng 'A' 'Z']

/-- Pattern `^[a-zA-Z0-9._%+-]+@[a-zA-Z0-9.-]+\.[a-zA-Z]{2,}$`
(local `emailPattern` of `isValidEmail`). -/
def emailPattern : Regex :=
  .cat .bol
    (.cat (Regex.plus (.cls localRanges))
      (.cat (chr '@')
        (.cat (Regex.plus (.cls domainRanges))
          (.cat (chr '.')
            (.cat (.rep (.cls alphaRanges) 2 none) .eol)))))

/-- Pattern `^1[3-9]\d{9}$` (local `phonePattern` of `isValidPhone`). -/
def phonePattern : Regex :=
  .cat .bol
    (.cat (chr '1')
      (.cat (.cls [rng '3' '9'])
        (.cat (.rep (.cls digitRanges) 9 (some 9)) .eol)))

/-! ## Error values -/

/-- Type `errorsx.ErrorX`: the fields the validators and the catalog set. -/
structure ErrorX where
  Code : Int
  Reason : String
  Message : String
  deriving DecidableEq, Repr

/-- Constant `http.StatusBadRequest`. -/
def StatusBadRequest : Int := 400

/-- Constant `http.StatusNotFound`. -/
def StatusNotFound : Int := 404

/-- Catalog entry `errno.ErrPostNotFound` (`post.go`). -/
def ErrPostNotFound : ErrorX :=
  { Code := StatusNotFound, Reason := "NotFound.PostNotFound", Message := "Post not found." }

/-- Modelled from the spec: the catalog entry `errno.ErrInvalidArgument`, whose declaration
is not among the sources: "status 400, reason InvalidArgument, message Invalid argument". -/
def ErrInvalidArgument : ErrorX :=
  { Code := StatusBadRequest, Reason := "InvalidArgument", Message := "Invalid argument" }

/-- Modelled from the spec: the method `(*ErrorX).WithMessage`, whose body is not among the
sources: "returning a new DomainError sharing status and reason but carrying s as its
message". -/
def ErrorX.WithMessage (err : ErrorX) (s : String) : ErrorX :=
  { Code := err.Code, Reason := err.Reason, Message := s }

/-! ## The validators of `validation.go` -/

/-- Function `isValidUsername`. -/
def isValidUsername (username : GoString) : Bool :=
  if !MatchString lengthRegex username then false
  else if !MatchString validRegex username then false
  else true

/-- Function `isValidPassword`; `none` is the `nil` error. -/
def isValidPassword (password : GoString) : Option ErrorX :=
  if password = [] then
    some (ErrInvalidArgument.WithMessage "password cannot be empty")
  else if password.length < 6 then
    some (ErrInvalidArgument.WithMessage "password must be at least 6 characters long")
  else if !MatchString letterPattern password then
    some (ErrInvalidArgument.WithMessage "password must contain at least one letter")
  else if !MatchString numberPattern password then
    some (ErrInvalidArgument.WithMessage "password must contain at least one number")
  else none

/-- Function `isValidEmail`; `none` is the `nil` error. -/
def isValidEmail (email : GoString) : Option ErrorX :=
  if email = [] then
    some (ErrInvalidArgument.WithMessage "email cannot be empty")
  else if !MatchString emailPattern email then
    some (ErrInvalidArgument.WithMessage "invalid email format")
  else none

/-- Function `isValidPhone`; `none` is the `nil` error. -/
def isValidPhone (phone : GoString) : Option ErrorX :=
  if phone = [] then
    some (ErrInvalidArgument.WithMessage "phone cannot be empty")
  else if !MatchString phonePattern phone then
    some (ErrInvalidArgument.WithMessage "invalid phone format")
  else none

/-! ## The vocabulary of the specification -/

/-- An ASCII letter, `[A-Za-z]`. -/
def isAsciiLetter (c : Nat) : Bool :=
  (decide ('A'.toNat ≤ c) && decide (c ≤ 'Z'.toNat)) ||
    (decide ('a'.toNat ≤ c) && decide (c ≤ 'z'.toNat))

/-- An ASCII digit, `[0-9]`. -/
def isAsciiDigit (c : Nat) : Bool := decide ('0'.toNat ≤ c) && decide (c ≤ '9'.toNat)

/-- A username character, `[A-Za-z0-9_]`. -/
def isWordChar (c : Nat) : Bool := isAsciiLetter c || isAsciiDigit c || c == '_'.toNat

/-- A character of the local part of an email address, `[A-Za-z0-9._%+-]`. -/
def isLocalChar (c : Nat) : Bool :=
  isAsciiLetter c || isAsciiDigit c || c == '.'.toNat || c == '_'.toNat || c == '%'.toNat ||
    c == '+'.toNat || c == '-'.toNat

/-- A character of the domain part of an email address, `[A-Za-z0-9.-]`. -/
def isDomainChar (c : Nat) : Bool :=
  isAsciiLetter c || isAsciiDigit c || c == '.'.toNat || c == '-'.toNat

/-- The email pattern read as a shape of the whole string: one or more local characters,
`@`, one or more domain characters, `.`, two or more ASCII letters. -/
def EmailShape (s : GoString) : Prop :=
  ∃ l d t : GoString, s = l ++ byte '@'.toNat :: (d ++ byte '.'.toNat :: t) ∧
    l ≠ [] ∧ (∀ b ∈ l, isLocalChar b.val = true) ∧
    d ≠ [] ∧ (∀ b ∈ d, isDomainChar b.val = true) ∧
    2 ≤ t.length ∧ (∀ b ∈ t, isAsciiLetter b.val = true)

/-- The phone pattern read as a shape of the whole string: exactly 11 characters, all ASCII
digits, the first `1` and the second one of `3` to `9`. -/
def PhoneShape (s : GoString) : Prop :=
  s.length = 11 ∧ (∀ b ∈ s, isAsciiDigit b.val = true) ∧
    s.head? = some (byte '1'.toNat) ∧
    ∃ c : Byte, s.tail.head? = some c ∧ '3'.toNat ≤ c.val ∧ c.val ≤ '9'.toNat

/-- The function `f` consumes exactly one rune, which satisfies `p`. -/
def Consumes (f : Pos → List Pos) (p : Nat → Bool) : Prop :=
  ∀ q m, m ∈ f q ↔ ∃ x, p x = true ∧ q.rest = x :: m.rest ∧ m.idx = q.idx + 1

/-- The phone pattern on runes. -/
def PhoneRunes (l : List Nat) : Prop :=
  ∃ y d, l = '1'.toNat :: y :: d ∧ ('3'.toNat ≤ y ∧ y ≤ '9'.toNat) ∧ d.length = 9 ∧
    ∀ x ∈ d, isAsciiDigit x = true

/-- The email pattern on runes. -/
def EmailRunes (r : List Nat) : Prop :=
  ∃ l d t, r = l ++ '@'.toNat :: (d ++ '.'.toNat :: t) ∧
    (1 ≤ l.length ∧ ∀ x ∈ l, isLocalChar x = true) ∧
    (1 ≤ d.length ∧ ∀ x ∈ d, isDomainChar x = true) ∧
    (2 ≤ t.length ∧ ∀ x ∈ t, isAsciiLetter x = true)


/-! ## Error values as Go sees them: pointers into a store -/

/-- The memory holding error values; a `*ErrorX` is an address (an index). -/
abbrev Store := List ErrorX

/-- Address of the catalog entry `errno.ErrInvalidArgument`. -/
def addrInvalidArgument : Nat := 0

/-- The store at program start: the catalog entry alone. -/
def initStore : Store := [ErrInvalidArgument]

/-- Modelled from the spec: the method `(*ErrorX).WithMessage` on pointers, whose body is not
among the sources: "`with_message` returns a *new* DomainError; the catalog constants must
remain unchanged".  The derived value goes to a fresh cell, whose address is returned. -/
def withMessageAt (st : Store) (base : Nat) (msg : String) : Store × Nat :=
  (st ++ [(st.getD base ErrInvalidArgument).WithMessage msg], st.length)

/-- One call of a validator that returns an `error`. -/
inductive Call where
  | password (s : GoString)
  | email (s : GoString)
  | phone (s : GoString)

/-- The outcome of a call as a value. -/
def Call.result : Call → Option ErrorX
  | .password s => isValidPassword s
  | .email s => isValidEmail s
  | .phone s => isValidPhone s

/-- A call executed on the store: a rejection derives its error from the catalog entry with
`WithMessage` and returns the address of the derived value; an acceptance returns `nil`. -/
def Call.exec (st : Store) (c : Call) : Store × Option Nat :=
  match c.result with
  | none => (st, none)
  | some e => ((withMessageAt st addrInvalidArgument e.Message).1,
      some (withMessageAt st addrInvalidArgument e.Message).2)

/-- A sequence of calls executed in order; the store after the last one. -/
def execAll : Store → List Call → Store
  | st, [] => st
  | st, c :: cs => execAll (c.exec st).1 cs

/-! ## The validator object -/

/-- Type `Validator`: it holds the data-access handle and nothing else; `σ` stands for the
interface `store.IStore`, whose declaration is not among the sources. -/
structure Validator (σ : Type) where
  store : σ

/-- Function `New`. -/
def New {σ : Type} (store : σ) : Validator σ := { store := store }

/-! ## The program state the checks run in -/

/-- The state of the running program as far as the checks and their callers are concerned: the
two package variables of `validation.go`, the error values in memory (the catalog entry at
`addrInvalidArgument`) and the validators built so far. -/
structure World (σ : Type) where
  /-- package variable `lengthRegex` -/
  lengthRegex : Regex
  /-- package variable `validRegex` -/
  validRegex : Regex
  /-- the error values in memory -/
  errors : Store
  /-- the validators `New` has returned -/
  validators : List (Validator σ)

/-- The state after package initialisation: the two patterns compiled, the catalog entry in
its cell, no validator yet. -/
def World.init (σ : Type) : World σ :=
  { lengthRegex := Miniblog.lengthRegex, validRegex := Miniblog.validRegex,
    errors := initStore, validators := [] }

/-- An implementation of the method `(*ErrorX).WithMessage`, whose body is not among the
sources: from the store, the address of the receiver and the message, the store after the
call and the address returned. -/
abbrev WithMessageFn := Store → Nat → String → Store × Nat

/-- What the checks need of `WithMessage`: the value at the address it returns has the status
code and the reason of the receiver and the given message, and every value that existed
keeps its status code and its reason.  A method that copies its receiver satisfies this, and
so does one that overwrites the message of its receiver. -/
structure WithMessageSpec (wm : WithMessageFn) : Prop where
  result : ∀ (st : Store) (base : Nat) (msg : String) (e : ErrorX), st[base]? = some e →
    (wm st base msg).1[(wm st base msg).2]? = some (e.WithMessage msg)
  frame : ∀ (st : Store) (base : Nat) (msg : String) (i : Nat) (e : ErrorX), st[i]? = some e →
    ∃ e1, (wm st base msg).1[i]? = some e1 ∧ e1.Code = e.Code ∧ e1.Reason = e.Reason

/-- An implementation of `WithMessage` that overwrites the message of its receiver and returns
the receiver itself. -/
def withMessageInPlace : WithMessageFn := fun st base msg =>
  (st.set base ((st.getD base ErrInvalidArgument).WithMessage msg), base)

/-- The statement `return errno.ErrInvalidArgument.WithMessage(msg)` run in a world. -/
def World.reject {σ : Type} (wm : WithMessageFn) (w : World σ) (msg : String) :
    World σ × Option Nat :=
  ({ w with errors := (wm w.errors addrInvalidArgument msg).1 },
    some (wm w.errors addrInvalidArgument msg).2)

/-- Function `isValidUsername` run in a world: it reads the two package variables. -/
def World.isValidUsername {σ : Type} (w : World σ) (username : GoString) : World σ × Bool :=
  if !MatchString w.lengthRegex username then (w, false)
  else if !MatchString w.validRegex username then (w, false)
  else (w, true)

/-- Function `isValidPassword` run in a world; the result is `nil` or the address of an
error. -/
def World.isValidPassword {σ : Type} (wm : WithMessageFn) (w : World σ) (password : GoString) :
    World σ × Option Nat :=
  if password = [] then w.reject wm "password cannot be empty"
  else if password.length < 6 then w.reject wm "password must be at least 6 characters long"
  else if !MatchString letterPattern password then
    w.reject wm "password must contain at least one letter"
  else if !MatchString numberPattern password then
    w.reject wm "password must contain at least one number"
  else (w, none)

/-- Function `isValidEmail` run in a world. -/
def World.isValidEmail {σ : Type} (wm : WithMessageFn) (w : World σ) (email : GoString) :
    World σ × Option Nat :=
  if email = [] then w.reject wm "email cannot be empty"
  else if !MatchString emailPattern email then w.reject wm "invalid email format"
  else (w, none)

/-- Function `isValidPhone` run in a world. -/
def World.isValidPhone {σ : Type} (wm : WithMessageFn) (w : World σ) (phone : GoString) :
    World σ × Option Nat :=
  if phone = [] then w.reject wm "phone cannot be empty"
  else if !MatchString phonePattern phone then w.reject wm "invalid phone format"
  else (w, none)

/-- The error a caller sees on return: `nil`, or the value at the returned address. -/
def World.errorOf {σ : Type} (r : World σ × Option Nat) : Option ErrorX :=
  match r.2 with
  | none => none
  | some a => r.1.errors[a]?

/-- Something the program does that the checks could be thought to depend on: building a
validator on some store, or an earlier call of one of the four checks. -/
inductive Action (σ : Type) where
  | new (store : σ)
  | username (x : GoString)
  | password (x : GoString)
  | email (x : GoString)
  | phone (x : GoString)

/-- The world after one action. -/
def World.step {σ : Type} (wm : WithMessageFn) (w : World σ) : Action σ → World σ
  | .new store => { w with validators := w.validators ++ [New store] }
  | .username x => (w.isValidUsername x).1
  | .password x => (w.isValidPassword wm x).1
  | .email x => (w.isValidEmail wm x).1
  | .phone x => (w.isValidPhone wm x).1

/-- The world after a history of actions. -/
def World.run {σ : Type} (wm : WithMessageFn) : World σ → List (Action σ) → World σ
  | w, [] => w
  | w, a :: rest => World.run wm (w.step wm a) rest

/-- What every world of a running program satisfies: the package variables hold the compiled
patterns and the catalog cell holds a value with the status code and reason of
`ErrInvalidArgument`. -/
def World.Ok {σ : Type} (w : World σ) : Prop :=
  w.lengthRegex = Miniblog.lengthRegex ∧ w.validRegex = Miniblog.validRegex ∧
    ∃ e, w.errors[addrInvalidArgument]? = some e ∧ e.Code = ErrInvalidArgument.Code ∧
      e.Reason = ErrInvalidArgument.Reason

/-- The outcome of a validator is an error carrying exactly this message. -/
def rejectsWith (r : Option ErrorX) (msg : String) : Bool :=
  match r with
  | some e => e.Message == msg
  | none => false

/-! ## Lemmas on the UTF-8 decoder -/

theorem runeSize_two {c : Nat} (h : runeSize c = 2) : 0xC2 ≤ c ∧ c ≤ 0xDF := by
  unfold runeSize at h
  split_ifs at h <;> omega

theorem runeSize_three {c : Nat} (h : runeSize c = 3) : 0xE0 ≤ c ∧ c ≤ 0xEF := by
  unfold runeSize at h
  split_ifs at h <;> omega

theorem runeSize_four {c : Nat} (h : runeSize c = 4) : 0xF0 ≤ c ∧ c ≤ 0xF4 := by
  unfold runeSize at h
  split_ifs at h <;> omega

theorem accepts_lo {c b : Nat} (h : accepts c b = true) :
    acceptLo c ≤ b ∧ 0x80 ≤ b ∧ b ≤ 0xBF := by
  unfold accepts at h
  simp only [Bool.and_eq_true, decide_eq_true_eq] at h
  refine ⟨h.1, ?_, ?_⟩
  · have := h.1
    unfold acceptLo at this
    split_ifs at this <;> omega
  · have := h.2
    unfold acceptHi at this
    split_ifs at this <;> omega

theorem isCont_lo {b : Nat} (h : isCont b = true) : 0x80 ≤ b := by
  unfold isCont at h
  simp only [Bool.and_eq_true, decide_eq_true_eq] at h
  exact h.1

/-- An ASCII byte is a rune of width one. -/
theorem decodeRune_ascii (b : Byte) (bs : GoString) (h : b.val < 0x80) :
    decodeRune (b :: bs) = (b.val, 1) := by
  simp [decodeRune, h]

/-- The width of the first rune of a non-empty string is at least one. -/
theorem decodeRune_width_pos (b : Byte) (bs : GoString) : 1 ≤ (decodeRune (b :: bs)).2 := by
  simp only [decodeRune]
  split_ifs
  · simp
  · split <;> (try split_ifs) <;> simp

/-- A rune that begins with a non-ASCII byte is not an ASCII rune. -/
theorem decodeRune_nonascii (b : Byte) (bs : GoString) (h : 0x80 ≤ b.val) :
    0x80 ≤ (decodeRune (b :: bs)).1 := by
  have hb : ¬ b.val < 0x80 := by omega
  simp only [decodeRune]
  rw [if_neg hb]
  split
  · rename_i b1 _ hs
    have h2 := runeSize_two hs
    split_ifs with ha
    · show 0x80 ≤ b.val % 32 * 64 + b1.val % 64
      omega
    · simp [RuneError]
  · rename_i b1 b2 _ hs
    have h3 := runeSize_three hs
    split_ifs with ha
    · simp only [Bool.and_eq_true] at ha
      have h1 := accepts_lo ha.1
      show 0x80 ≤ b.val % 16 * 4096 + b1.val % 64 * 64 + b2.val % 64
      unfold acceptLo at h1
      have := b1.isLt
      split_ifs at h1 <;> omega
    · simp [RuneError]
  · rename_i b1 b2 b3 _ hs
    have h4 := runeSize_four hs
    split_ifs with ha
    · simp only [Bool.and_eq_true] at ha
      have h1 := accepts_lo ha.1.1
      show 0x80 ≤ b.val % 8 * 262144 + b1.val % 64 * 4096 + b2.val % 64 * 64 + b3.val % 64
      unfold acceptLo at h1
      have := b1.isLt
      split_ifs at h1 <;> omega
    · simp [RuneError]
  · simp [RuneError]

/-- The bytes a multi-byte rune consumes after its lead byte are not ASCII. -/
theorem decodeRune_tail (b : Byte) (bs : GoString) :
    ∀ c ∈ bs.take ((decodeRune (b :: bs)).2 - 1), 0x80 ≤ c.val := by
  simp only [decodeRune]
  split_ifs with hb
  · simp
  · split
    · rename_i b1 _ hs
      split_ifs with ha
      · have h1 := (accepts_lo ha).2.1
        simpa using h1
      · simp
    · rename_i b1 b2 _ hs
      split_ifs with ha
      · simp only [Bool.and_eq_true] at ha
        have h1 := (accepts_lo ha.1).2.1
        have h2 := isCont_lo ha.2
        simp [h1, h2]
      · simp
    · rename_i b1 b2 b3 _ hs
      split_ifs with ha
      · simp only [Bool.and_eq_true] at ha
        have h1 := (accepts_lo ha.1.1).2.1
        have h2 := isCont_lo ha.1.2
        have h3 := isCont_lo ha.2
        simp [h1, h2, h3]
      · simp
    · simp

/-- A string of ASCII bytes is read as its bytes. -/
theorem runes_of_ascii (s : GoString) (h : ∀ b ∈ s, b.val < 0x80) :
    runes s = s.map (fun b => b.val) := by
  unfold runes
  induction s with
  | nil => rfl
  | cons b bs ih =>
    have hb : b.val < 0x80 := h b (List.mem_cons_self _ _)
    have ih1 := ih (fun c hc => h c (List.mem_cons_of_mem _ hc))
    simp [runesAux, decodeRune_ascii b bs hb, ih1]

/-- A string read as ASCII runes only has ASCII bytes only. -/
theorem ascii_of_runes (s : GoString) (h : ∀ x ∈ runes s, x < 0x80) :
    ∀ b ∈ s, b.val < 0x80 := by
  unfold runes at h
  induction s with
  | nil => simp
  | cons b bs ih =>
    have hb : b.val < 0x80 := by
      by_contra hc
      have h1 := decodeRune_nonascii b bs (by omega)
      have h2 := h (decodeRune (b :: bs)).1 (by simp [runesAux])
      omega
    simp only [runesAux, decodeRune_ascii b bs hb] at h
    intro c hc
    rcases List.mem_cons.1 hc with rfl | hc
    · exact hb
    · exact ih (fun x hx => h x (List.mem_cons_of_mem _ hx)) c hc

/-- The ASCII runes of a string are its ASCII bytes, whatever surrounds them. -/
theorem mem_runesAux_ascii (x : Nat) (hx : x < 0x80) (s : GoString) :
    ∀ k, (∀ c ∈ s.take k, 0x80 ≤ c.val) → (x ∈ runesAux k s ↔ ∃ b ∈ s, b.val = x) := by
  induction s with
  | nil => intro k _; simp [runesAux]
  | cons b bs ih =>
    intro k hk
    cases k with
    | zero =>
      have ht := ih ((decodeRune (b :: bs)).2 - 1) (decodeRune_tail b bs)
      simp only [runesAux, List.mem_cons, ht, exists_eq_or_imp]
      by_cases hb : b.val < 0x80
      · rw [decodeRune_ascii b bs hb]
        constructor
        · rintro (h | h)
          · exact Or.inl h.symm
          · exact Or.inr h
        · rintro (h | h)
          · exact Or.inl h.symm
          · exact Or.inr h
      · have h1 := decodeRune_nonascii b bs (by omega)
        constructor
        · rintro (h | h)
          · omega
          · exact Or.inr h
        · rintro (h | h)
          · omega
          · exact Or.inr h
    | succ k =>
      have hb : 0x80 ≤ b.val := hk b (by simp)
      have ht := ih k (fun c hc => hk c (by simp [hc]))
      simp only [runesAux, List.mem_cons, ht, exists_eq_or_imp]
      constructor
      · intro h; exact Or.inr h
      · rintro (h | h)
        · omega
        · exact h

/-- An ASCII rune occurs in a string exactly when the byte of that value does. -/
theorem mem_runes_ascii (x : Nat) (hx : x < 0x80) (s : GoString) :
    x ∈ runes s ↔ ∃ b ∈ s, b.val = x :=
  mem_runesAux_ascii x hx s 0 (by simp)

/-! ## Lemmas on the matcher -/

theorem Pos.ext_iff2 (a b : Pos) : a = b ↔ a.idx = b.idx ∧ a.rest = b.rest := by
  cases a; cases b; simp

theorem consumes_stepIf (p : Nat → Bool) : Consumes (stepIf p) p := by
  intro q m
  unfold stepIf
  cases hq : q.rest with
  | nil => simp
  | cons x xs =>
    by_cases hp : p x = true
    · simp only [hp, if_true, List.mem_singleton, List.cons.injEq]
      constructor
      · rintro rfl
        exact ⟨x, hp, ⟨rfl, rfl⟩, rfl⟩
      · rintro ⟨y, _, ⟨_, h2⟩, h3⟩
        rw [Pos.ext_iff2]
        exact ⟨h3, h2.symm⟩
    · simp only [hp, List.cons.injEq]
      constructor
      · intro h; simp at h
      · rintro ⟨y, hy, ⟨rfl, _⟩, _⟩
        exact absurd hy hp

theorem consumes_char (c : Nat) : Consumes (fun m => (Regex.char c).run m) (fun x => x == c) := by
  simpa [Regex.run] using consumes_stepIf (fun x => x == c)

theorem consumes_cls (rs : List (Nat × Nat)) :
    Consumes (fun m => (Regex.cls rs).run m) (inRanges rs) := by
  simpa [Regex.run] using consumes_stepIf (inRanges rs)

theorem consumes_anyNotNL : Consumes (fun m => Regex.anyNotNL.run m) (fun x => x != 10) := by
  simpa [Regex.run] using consumes_stepIf (fun x => x != 10)

theorem mem_iterExact {f : Pos → List Pos} {p : Nat → Bool} (hf : Consumes f p) (n : Nat) :
    ∀ q m, m ∈ iterExact f n q ↔
      ∃ pre : List Nat, pre.length = n ∧ (∀ x ∈ pre, p x = true) ∧ q.rest = pre ++ m.rest ∧
        m.idx = q.idx + n := by
  induction n with
  | zero =>
    intro q m
    simp only [iterExact, List.mem_singleton, Pos.ext_iff2]
    constructor
    · rintro ⟨h1, h2⟩
      exact ⟨[], rfl, by simp, by simp [h2], by simp [h1]⟩
    · rintro ⟨pre, h0, _, h2, h3⟩
      have : pre = [] := List.length_eq_zero.1 h0
      subst this
      exact ⟨by simpa using h3, by simpa using h2.symm⟩
  | succ n ih =>
    intro q m
    simp only [iterExact, List.mem_flatMap]
    constructor
    · rintro ⟨a, ha, hm⟩
      obtain ⟨x, hx, hq, hi⟩ := (hf q a).1 ha
      obtain ⟨pre, hl, hp, hr, hj⟩ := (ih a m).1 hm
      refine ⟨x :: pre, by simp [hl], ?_, by simp [hq, hr], by omega⟩
      intro y hy
      rcases List.mem_cons.1 hy with rfl | hy
      · exact hx
      · exact hp y hy
    · rintro ⟨pre, hl, hp, hr, hj⟩
      cases pre with
      | nil => simp at hl
      | cons x pre =>
        refine ⟨⟨q.idx + 1, pre ++ m.rest⟩, ?_, ?_⟩
        · exact (hf q _).2 ⟨x, hp x (by simp), by simpa using hr, rfl⟩
        · refine (ih _ m).2 ⟨pre, by simpa using hl, fun y hy => hp y (by simp [hy]), rfl, ?_⟩
          simp only
          omega

theorem mem_iterUpTo {f : Pos → List Pos} {p : Nat → Bool} (hf : Consumes f p) (n : Nat) :
    ∀ q m, m ∈ iterUpTo f n q ↔
      ∃ pre : List Nat, pre.length ≤ n ∧ (∀ x ∈ pre, p x = true) ∧ q.rest = pre ++ m.rest ∧
        m.idx = q.idx + pre.length := by
  induction n with
  | zero =>
    intro q m
    simp only [iterUpTo, List.mem_singleton, Pos.ext_iff2]
    constructor
    · rintro ⟨h1, h2⟩
      exact ⟨[], by simp, by simp, by simp [h2], by simp [h1]⟩
    · rintro ⟨pre, h0, _, h2, h3⟩
      have : pre = [] := List.length_eq_zero.1 (by omega)
      subst this
      exact ⟨by simpa using h3, by simpa using h2.symm⟩
  | succ n ih =>
    intro q m
    simp only [iterUpTo, List.mem_cons, List.mem_flatMap]
    constructor
    · rintro (rfl | ⟨a, ha, hm⟩)
      · exact ⟨[], by simp, by simp, by simp, by simp⟩
      · obtain ⟨x, hx, hq, hi⟩ := (hf q a).1 ha
        obtain ⟨pre, hl, hp, hr, hj⟩ := (ih a m).1 hm
        refine ⟨x :: pre, by simp [hl], ?_, by simp [hq, hr], by simp; omega⟩
        intro y hy
        rcases List.mem_cons.1 hy with rfl | hy
        · exact hx
        · exact hp y hy
    · rintro ⟨pre, hl, hp, hr, hj⟩
      cases pre with
      | nil =>
        left
        rw [Pos.ext_iff2]
        exact ⟨by simpa using hj, by simpa using hr.symm⟩
      | cons x pre =>
        right
        refine ⟨⟨q.idx + 1, pre ++ m.rest⟩, ?_, ?_⟩
        · exact (hf q _).2 ⟨x, hp x (by simp), by simpa using hr, rfl⟩
        · refine (ih _ m).2 ⟨pre, by simpa using hl, fun y hy => hp y (by simp [hy]), rfl, ?_⟩
          simp only [List.length_cons] at hj ⊢
          omega

/-- Ends of a repetition of a one-rune pattern: a run of `lo` to `hi` runes satisfying the
predicate has been consumed. -/
theorem mem_run_rep {r : Regex} {p : Nat → Bool} (hf : Consumes (fun m => r.run m) p)
    (lo : Nat) (hi : Option Nat) (q m : Pos) :
    m ∈ (Regex.rep r lo hi).run q ↔
      ∃ pre : List Nat, lo ≤ pre.length ∧ (∀ h, hi = some h → pre.length ≤ lo + (h - lo)) ∧
        (∀ x ∈ pre, p x = true) ∧ q.rest = pre ++ m.rest ∧ m.idx = q.idx + pre.length := by
  simp only [Regex.run, List.mem_flatMap]
  constructor
  · rintro ⟨a, ha, hm⟩
    obtain ⟨pre1, hl1, hp1, hr1, hi1⟩ := (mem_iterExact hf lo q a).1 ha
    obtain ⟨pre2, hl2, hp2, hr2, hi2⟩ := (mem_iterUpTo hf _ a m).1 hm
    refine ⟨pre1 ++ pre2, by simp; omega, ?_, ?_, by simp [hr1, hr2], by simp; omega⟩
    · intro h hh
      subst hh
      simp only [List.length_append] at hl2 ⊢
      omega
    · intro x hx
      rcases List.mem_append.1 hx with hx | hx
      · exact hp1 x hx
      · exact hp2 x hx
  · rintro ⟨pre, hl, hh, hp, hr, hj⟩
    refine ⟨⟨q.idx + lo, pre.drop lo ++ m.rest⟩, ?_, ?_⟩
    · refine (mem_iterExact hf lo q _).2 ⟨pre.take lo, by simp [hl], ?_, ?_, rfl⟩
      · intro x hx
        exact hp x (List.mem_of_mem_take hx)
      · rw [← List.append_assoc, List.take_append_drop]
        exact hr
    · refine (mem_iterUpTo hf _ _ m).2 ⟨pre.drop lo, ?_, ?_, rfl, ?_⟩
      · cases hi with
        | none => simp
        | some h =>
          have := hh h rfl
          simp only [List.length_drop]
          omega
      · intro x hx
        exact hp x (List.mem_of_mem_drop hx)
      · simp only [List.length_drop]
        omega

theorem mem_run_cat (r s : Regex) (q m : Pos) :
    m ∈ (Regex.cat r s).run q ↔ ∃ a, a ∈ r.run q ∧ m ∈ s.run a := by
  simp [Regex.run, List.mem_flatMap]

theorem mem_run_bol (q m : Pos) : m ∈ Regex.bol.run q ↔ q.idx = 0 ∧ m = q := by
  simp only [Regex.run]
  split_ifs with h <;> simp [h]

theorem mem_run_eol (q m : Pos) : m ∈ Regex.eol.run q ↔ q.rest = [] ∧ m = q := by
  simp only [Regex.run]
  split_ifs with h <;> simp [h]

theorem mem_startsFrom (l : List Nat) :
    ∀ i q, q ∈ startsFrom i l ↔ ∃ pre : List Nat, l = pre ++ q.rest ∧ q.idx = i + pre.length := by
  induction l with
  | nil =>
    intro i q
    simp only [startsFrom, List.mem_singleton, Pos.ext_iff2]
    constructor
    · rintro ⟨h1, h2⟩
      exact ⟨[], by simp [h2], by simp [h1]⟩
    · rintro ⟨pre, h1, h2⟩
      have h3 : pre = [] ∧ q.rest = [] := by simpa using h1.symm
      refine ⟨?_, h3.2⟩
      simp [h3.1] at h2
      exact h2
  | cons x xs ih =>
    intro i q
    simp only [startsFrom, List.mem_cons, ih, Pos.ext_iff2]
    constructor
    · rintro (⟨h1, h2⟩ | ⟨pre, h1, h2⟩)
      · exact ⟨[], by simp [h2], by simp [h1]⟩
      · exact ⟨x :: pre, by simp [h1], by simp; omega⟩
    · rintro ⟨pre, h1, h2⟩
      cases pre with
      | nil => left; exact ⟨by simpa using h2, by simpa using h1.symm⟩
      | cons y pre =>
        right
        simp only [List.cons_append, List.cons.injEq] at h1
        exact ⟨pre, h1.2, by simp at h2; omega⟩

/-- Unfolding of `MatchString`: some match begins somewhere. -/
theorem matchString_iff (re : Regex) (s : GoString) :
    MatchString re s = true ↔ ∃ q ∈ startsFrom 0 (runes s), ∃ m, m ∈ re.run q := by
  unfold MatchString
  simp only [List.any_eq_true, Bool.not_eq_true', List.isEmpty_eq_false]
  constructor
  · rintro ⟨q, hq, hne⟩
    obtain ⟨m, hm⟩ := List.exists_mem_of_ne_nil _ hne
    exact ⟨q, hq, m, hm⟩
  · rintro ⟨q, hq, m, hm⟩
    exact ⟨q, hq, List.ne_nil_of_mem hm⟩

/-- A pattern `^r` matches when `r` matches at the beginning of the input. -/
theorem matchString_bol (r : Regex) (s : GoString) :
    MatchString (.cat .bol r) s = true ↔ ∃ m, m ∈ r.run ⟨0, runes s⟩ := by
  rw [matchString_iff]
  constructor
  · rintro ⟨q, hq, m, hm⟩
    obtain ⟨a, ha, hm1⟩ := (mem_run_cat _ _ _ _).1 hm
    obtain ⟨h0, haq⟩ := (mem_run_bol _ _).1 ha
    obtain ⟨pre, h1, h2⟩ := (mem_startsFrom _ 0 q).1 hq
    have hpre : pre = [] := List.length_eq_zero.1 (by omega)
    have hq0 : q = ⟨0, runes s⟩ := by
      rw [Pos.ext_iff2]
      exact ⟨h0, by simpa [hpre] using h1.symm⟩
    rw [haq, hq0] at hm1
    exact ⟨m, hm1⟩
  · rintro ⟨m, hm⟩
    refine ⟨⟨0, runes s⟩, (mem_startsFrom _ 0 _).2 ⟨[], by simp, by simp⟩, m, ?_⟩
    exact (mem_run_cat _ _ _ _).2 ⟨_, (mem_run_bol _ _).2 ⟨rfl, rfl⟩, hm⟩

/-- A pattern `^r$` matches when `r` can consume the whole input. -/
theorem matchString_anchored (r : Regex) (s : GoString) :
    MatchString (.cat .bol (.cat r .eol)) s = true ↔
      ∃ m, m ∈ r.run ⟨0, runes s⟩ ∧ m.rest = [] := by
  rw [matchString_bol]
  constructor
  · rintro ⟨m, hm⟩
    obtain ⟨b, hb, hm2⟩ := (mem_run_cat _ _ _ _).1 hm
    exact ⟨b, hb, ((mem_run_eol _ _).1 hm2).1⟩
  · rintro ⟨m, hm, he⟩
    exact ⟨m, (mem_run_cat _ _ _ _).2 ⟨m, hm, (mem_run_eol _ _).2 ⟨he, rfl⟩⟩⟩

/-- An unanchored one-class pattern matches when some rune of the input is in the class. -/
theorem matchString_cls (rs : List (Nat × Nat)) (s : GoString) :
    MatchString (.cls rs) s = true ↔ ∃ x ∈ runes s, inRanges rs x = true := by
  rw [matchString_iff]
  constructor
  · rintro ⟨q, hq, m, hm⟩
    obtain ⟨x, hx, hr, _⟩ := (consumes_cls rs q m).1 hm
    obtain ⟨pre, h1, _⟩ := (mem_startsFrom _ 0 q).1 hq
    exact ⟨x, by rw [h1, hr]; simp, hx⟩
  · rintro ⟨x, hx, hp⟩
    obtain ⟨pre, suf, hs⟩ := List.append_of_mem hx
    refine ⟨⟨pre.length, x :: suf⟩, (mem_startsFrom _ 0 _).2 ⟨pre, hs, by simp⟩,
      ⟨pre.length + 1, suf⟩, ?_⟩
    exact (consumes_cls rs _ _).2 ⟨x, hp, rfl, rfl⟩

/-! ## The character classes -/

theorem inRanges_letter (x : Nat) : inRanges letterRanges x = isAsciiLetter x := by
  simp [inRanges, letterRanges, rng, isAsciiLetter]

theorem inRanges_alpha (x : Nat) : inRanges alphaRanges x = isAsciiLetter x := by
  simp [inRanges, alphaRanges, rng, isAsciiLetter, Bool.or_comm]

theorem inRanges_digit (x : Nat) : inRanges digitRanges x = isAsciiDigit x := by
  simp [inRanges, digitRanges, rng, isAsciiDigit]

theorem isAsciiLetter_lt {x : Nat} (h : isAsciiLetter x = true) : x < 0x80 := by
  simp [isAsciiLetter] at h
  omega

theorem isAsciiDigit_lt {x : Nat} (h : isAsciiDigit x = true) : x < 0x80 := by
  simp [isAsciiDigit] at h
  omega

theorem isWordChar_lt {x : Nat} (h : isWordChar x = true) : x < 0x80 := by
  simp [isWordChar, isAsciiLetter, isAsciiDigit] at h
  omega

theorem isLocalChar_lt {x : Nat} (h : isLocalChar x = true) : x < 0x80 := by
  simp [isLocalChar, isAsciiLetter, isAsciiDigit] at h
  omega

theorem isDomainChar_lt {x : Nat} (h : isDomainChar x = true) : x < 0x80 := by
  simp [isDomainChar, isAsciiLetter, isAsciiDigit] at h
  omega

theorem inRanges_word (x : Nat) : inRanges wordRanges x = isWordChar x := by
  rw [Bool.eq_iff_iff]
  simp [inRanges, wordRanges, rng, isWordChar, isAsciiLetter, isAsciiDigit]
  omega

theorem inRanges_local (x : Nat) : inRanges localRanges x = isLocalChar x := by
  rw [Bool.eq_iff_iff]
  simp [inRanges, localRanges, rng, isLocalChar, isAsciiLetter, isAsciiDigit]
  omega

theorem inRanges_domain (x : Nat) : inRanges domainRanges x = isDomainChar x := by
  rw [Bool.eq_iff_iff]
  simp [inRanges, domainRanges, rng, isDomainChar, isAsciiLetter, isAsciiDigit]
  omega

/-! ## The patterns, read on runes and on bytes -/

/-- A property of rune sequences that forces ASCII holds of the runes of a string exactly when
it holds of its bytes. -/
theorem runes_bridge (R : List Nat → Prop) (hR : ∀ l, R l → ∀ x ∈ l, x < 0x80) (s : GoString) :
    R (runes s) ↔ R (s.map (fun b => b.val)) := by
  constructor
  · intro h
    have hb := ascii_of_runes s (hR _ h)
    rw [runes_of_ascii s hb] at h
    exact h
  · intro h
    have hb : ∀ b ∈ s, b.val < 0x80 := fun b hb => hR _ h b.val (List.mem_map.2 ⟨b, hb, rfl⟩)
    rw [runes_of_ascii s hb]
    exact h

/-- A pattern `^a{lo,hi}$` over a one-rune pattern `a`. -/
theorem matchString_rep_anchored {r : Regex} {p : Nat → Bool}
    (hf : Consumes (fun m => r.run m) p) (lo : Nat) (hi : Option Nat) (s : GoString) :
    MatchString (.cat .bol (.cat (.rep r lo hi) .eol)) s = true ↔
      lo ≤ (runes s).length ∧ (∀ h, hi = some h → (runes s).length ≤ lo + (h - lo)) ∧
        ∀ x ∈ runes s, p x = true := by
  rw [matchString_anchored]
  constructor
  · rintro ⟨m, hm, he⟩
    obtain ⟨pre, h1, h2, h3, h4, _⟩ := (mem_run_rep hf lo hi _ m).1 hm
    have h5 : runes s = pre := by simpa [he] using h4
    rw [h5]
    exact ⟨h1, h2, h3⟩
  · rintro ⟨h1, h2, h3⟩
    exact ⟨⟨(runes s).length, []⟩, (mem_run_rep hf lo hi _ _).2 ⟨runes s, h1, h2, h3, by simp, by simp⟩,
      rfl⟩

/-- Pattern `^.{3,20}$`: three to twenty runes, none a newline. -/
theorem matchString_lengthRegex (s : GoString) :
    MatchString lengthRegex s = true ↔
      3 ≤ (runes s).length ∧ (runes s).length ≤ 20 ∧ ∀ x ∈ runes s, x ≠ 10 := by
  unfold lengthRegex
  rw [matchString_rep_anchored consumes_anyNotNL]
  simp

/-- Pattern `^[A-Za-z0-9_]+$`: a non-empty string of username characters. -/
theorem matchString_validRegex (s : GoString) :
    MatchString validRegex s = true ↔ s ≠ [] ∧ ∀ b ∈ s, isWordChar b.val = true := by
  unfold validRegex Regex.plus
  rw [matchString_rep_anchored (consumes_cls wordRanges)]
  simp only [inRanges_word]
  have hb := runes_bridge (fun l => 1 ≤ l.length ∧ (∀ h : Nat, (none : Option Nat) = some h →
      l.length ≤ 1 + (h - 1)) ∧ ∀ x ∈ l, isWordChar x = true)
    (fun l hl x hx => isWordChar_lt (hl.2.2 x hx)) s
  rw [hb]
  simp only [List.length_map, List.mem_map, forall_exists_index, and_imp,
    forall_apply_eq_imp_iff₂]
  constructor
  · rintro ⟨h1, _, h3⟩
    refine ⟨?_, h3⟩
    rintro rfl
    simp at h1
  · rintro ⟨h1, h3⟩
    refine ⟨?_, by simp, h3⟩
    cases s with
    | nil => exact absurd rfl h1
    | cons b bs => simp

/-- Pattern `[A-Za-z]`: some byte is an ASCII letter. -/
theorem matchString_letterPattern (s : GoString) :
    MatchString letterPattern s = true ↔ ∃ b ∈ s, isAsciiLetter b.val = true := by
  unfold letterPattern
  rw [matchString_cls]
  simp only [inRanges_letter]
  constructor
  · rintro ⟨x, hx, hp⟩
    obtain ⟨b, hb, rfl⟩ := (mem_runes_ascii x (isAsciiLetter_lt hp) s).1 hx
    exact ⟨b, hb, hp⟩
  · rintro ⟨b, hb, hp⟩
    exact ⟨b.val, (mem_runes_ascii _ (isAsciiLetter_lt hp) s).2 ⟨b, hb, rfl⟩, hp⟩

/-- Pattern `\d`: some byte is an ASCII digit. -/
theorem matchString_numberPattern (s : GoString) :
    MatchString numberPattern s = true ↔ ∃ b ∈ s, isAsciiDigit b.val = true := by
  unfold numberPattern
  rw [matchString_cls]
  simp only [inRanges_digit]
  constructor
  · rintro ⟨x, hx, hp⟩
    obtain ⟨b, hb, rfl⟩ := (mem_runes_ascii x (isAsciiDigit_lt hp) s).1 hx
    exact ⟨b, hb, hp⟩
  · rintro ⟨b, hb, hp⟩
    exact ⟨b.val, (mem_runes_ascii _ (isAsciiDigit_lt hp) s).2 ⟨b, hb, rfl⟩, hp⟩

theorem mem_run_chr (c : Char) (q m : Pos) :
    m ∈ (chr c).run q ↔ q.rest = c.toNat :: m.rest ∧ m.idx = q.idx + 1 := by
  unfold chr
  rw [consumes_char c.toNat q m]
  constructor
  · rintro ⟨x, hx, h1, h2⟩
    have : x = c.toNat := by simpa using hx
    subst this
    exact ⟨h1, h2⟩
  · rintro ⟨h1, h2⟩
    exact ⟨c.toNat, by simp, h1, h2⟩

/-- Username law on runes and bytes together. -/
theorem isValidUsername_iff (s : GoString) :
    isValidUsername s = true ↔
      (3 ≤ s.length ∧ s.length ≤ 20) ∧ ∀ b ∈ s, isWordChar b.val = true := by
  have hL := matchString_lengthRegex s
  have hV := matchString_validRegex s
  unfold isValidUsername
  constructor
  · intro h
    have h1 : MatchString lengthRegex s = true := by
      by_contra hc
      simp [hc] at h
    have h2 : MatchString validRegex s = true := by
      by_contra hc
      simp [hc] at h
    obtain ⟨_, hw⟩ := hV.1 h2
    have hr := runes_of_ascii s (fun b hb => isWordChar_lt (hw b hb))
    obtain ⟨h3, h4, _⟩ := hL.1 h1
    rw [hr, List.length_map] at h3 h4
    exact ⟨⟨h3, h4⟩, hw⟩
  · rintro ⟨⟨h3, h4⟩, hw⟩
    have hr := runes_of_ascii s (fun b hb => isWordChar_lt (hw b hb))
    have h1 : MatchString lengthRegex s = true := by
      refine hL.2 ?_
      rw [hr, List.length_map]
      refine ⟨h3, h4, ?_⟩
      intro x hx
      obtain ⟨b, hb, rfl⟩ := List.mem_map.1 hx
      have := hw b hb
      intro h10
      rw [h10] at this
      simp [isWordChar, isAsciiLetter, isAsciiDigit] at this
    have h2 : MatchString validRegex s = true := by
      refine hV.2 ⟨?_, hw⟩
      rintro rfl
      simp at h3
    simp [h1, h2]

theorem byte_val_eq {b : Byte} {n : Nat} (hn : n < 256) (h : b.val = n) : b = byte n := by
  apply Fin.ext
  simp [byte, h, Nat.mod_eq_of_lt hn]

theorem matchString_phone_runes (s : GoString) :
    MatchString phonePattern s = true ↔ PhoneRunes (runes s) := by
  unfold phonePattern
  rw [matchString_bol]
  constructor
  · rintro ⟨m0, hm⟩
    obtain ⟨a, ha, hm1⟩ := (mem_run_cat _ _ _ _).1 hm
    obtain ⟨b, hb, hm2⟩ := (mem_run_cat _ _ _ _).1 hm1
    obtain ⟨m, hm3, hm4⟩ := (mem_run_cat _ _ _ _).1 hm2
    have he := ((mem_run_eol _ _).1 hm4).1
    obtain ⟨h1, _⟩ := (mem_run_chr _ _ _).1 ha
    obtain ⟨y, hy, h2, _⟩ := (consumes_cls _ a b).1 hb
    obtain ⟨pre, h3, h4, h5, h6, _⟩ := (mem_run_rep (consumes_cls digitRanges) _ _ b m).1 hm3
    have h7 := h4 9 rfl
    simp only at h1
    refine ⟨y, pre, ?_, ?_, by omega, ?_⟩
    · rw [h1, h2, h6, he]; simp
    · simpa [inRanges, rng] using hy
    · intro x hx
      rw [← inRanges_digit]
      exact h5 x hx
  · rintro ⟨y, d, h1, h2, h3, h4⟩
    refine ⟨⟨11, []⟩, ?_⟩
    refine (mem_run_cat _ _ _ _).2 ⟨⟨1, y :: d⟩, (mem_run_chr _ _ _).2 ⟨h1, rfl⟩, ?_⟩
    refine (mem_run_cat _ _ _ _).2 ⟨⟨2, d⟩, (consumes_cls _ _ _).2 ⟨y, ?_, rfl, rfl⟩, ?_⟩
    · simpa [inRanges, rng] using h2
    refine (mem_run_cat _ _ _ _).2 ⟨⟨11, []⟩, ?_, (mem_run_eol _ _).2 ⟨rfl, rfl⟩⟩
    · refine (mem_run_rep (consumes_cls digitRanges) _ _ _ _).2 ⟨d, by omega, ?_, ?_, by simp, ?_⟩
      · intro h hh
        cases hh
        omega
      · intro x hx
        rw [inRanges_digit]
        exact h4 x hx
      · simp only
        omega

theorem phoneRunes_ascii (l : List Nat) (h : PhoneRunes l) : ∀ x ∈ l, x < 0x80 := by
  obtain ⟨y, d, rfl, h2, _, h4⟩ := h
  intro x hx
  simp only [List.mem_cons] at hx
  rcases hx with rfl | rfl | hx
  · decide
  · have : '9'.toNat = 57 := rfl
    omega
  · exact isAsciiDigit_lt (h4 x hx)

theorem phoneRunes_map (s : GoString) : PhoneRunes (s.map (fun b => b.val)) ↔ PhoneShape s := by
  constructor
  · rintro ⟨y, d, h1, h2, h3, h4⟩
    obtain ⟨b0, s1, rfl, hb0, h5⟩ := List.map_eq_cons_iff.1 h1
    obtain ⟨b1, s2, rfl, hb1, h6⟩ := List.map_eq_cons_iff.1 h5
    subst h6
    rw [List.length_map] at h3
    have e0 : b0 = byte '1'.toNat := byte_val_eq (by decide) hb0
    refine ⟨by simp [h3], ?_, by simp [e0], b1, by simp, by omega, by omega⟩
    intro b hb
    simp only [List.mem_cons] at hb
    rcases hb with rfl | rfl | hb
    · rw [hb0]; decide
    · rw [hb1]
      simp only [isAsciiDigit, Bool.and_eq_true, decide_eq_true_eq]
      have : '0'.toNat = 48 := rfl
      have : '3'.toNat = 51 := rfl
      omega
    · exact h4 _ (List.mem_map.2 ⟨b, hb, rfl⟩)
  · rintro ⟨h1, h2, h3, c, h4, h5⟩
    match s, h1, h2, h3, h4 with
    | b0 :: b1 :: d, h1, h2, h3, h4 =>
      simp only [List.head?_cons, Option.some.injEq, List.tail_cons] at h3 h4
      subst h3 h4
      refine ⟨b1.val, d.map (fun b => b.val), by simp only [List.map_cons]; rfl, h5,
        by simpa using h1, ?_⟩
      intro x hx
      obtain ⟨b, hb, rfl⟩ := List.mem_map.1 hx
      exact h2 b (by simp [hb])

/-- Pattern `^1[3-9]\d{9}$`: the phone shape. -/
theorem matchString_phonePattern (s : GoString) :
    MatchString phonePattern s = true ↔ PhoneShape s := by
  rw [matchString_phone_runes, runes_bridge PhoneRunes phoneRunes_ascii, phoneRunes_map]

theorem matchString_email_runes (s : GoString) :
    MatchString emailPattern s = true ↔ EmailRunes (runes s) := by
  unfold emailPattern Regex.plus
  rw [matchString_bol]
  constructor
  · rintro ⟨m0, hm⟩
    obtain ⟨a1, ha1, hm1⟩ := (mem_run_cat _ _ _ _).1 hm
    obtain ⟨a2, ha2, hm2⟩ := (mem_run_cat _ _ _ _).1 hm1
    obtain ⟨a3, ha3, hm3⟩ := (mem_run_cat _ _ _ _).1 hm2
    obtain ⟨a4, ha4, hm5⟩ := (mem_run_cat _ _ _ _).1 hm3
    obtain ⟨m, hm4, hm6⟩ := (mem_run_cat _ _ _ _).1 hm5
    have he := ((mem_run_eol _ _).1 hm6).1
    obtain ⟨l, l1, _, l3, l4, _⟩ := (mem_run_rep (consumes_cls localRanges) _ _ _ a1).1 ha1
    obtain ⟨c1, _⟩ := (mem_run_chr _ _ _).1 ha2
    obtain ⟨d, d1, _, d3, d4, _⟩ := (mem_run_rep (consumes_cls domainRanges) _ _ _ a3).1 ha3
    obtain ⟨c2, _⟩ := (mem_run_chr _ _ _).1 ha4
    obtain ⟨t, t1, _, t3, t4, _⟩ := (mem_run_rep (consumes_cls alphaRanges) _ _ _ m).1 hm4
    simp only at l4
    refine ⟨l, d, t, ?_, ⟨l1, ?_⟩, ⟨d1, ?_⟩, ⟨t1, ?_⟩⟩
    · rw [l4, c1, d4, c2, t4, he]; simp
    · intro x hx; rw [← inRanges_local]; exact l3 x hx
    · intro x hx; rw [← inRanges_domain]; exact d3 x hx
    · intro x hx; rw [← inRanges_alpha]; exact t3 x hx
  · rintro ⟨l, d, t, h, ⟨l1, l3⟩, ⟨d1, d3⟩, ⟨t1, t3⟩⟩
    refine ⟨⟨l.length + 1 + d.length + 1 + t.length, []⟩, ?_⟩
    refine (mem_run_cat _ _ _ _).2 ⟨⟨l.length, '@'.toNat :: (d ++ '.'.toNat :: t)⟩, ?_, ?_⟩
    · refine (mem_run_rep (consumes_cls localRanges) _ _ _ _).2
        ⟨l, l1, by simp, ?_, h, by simp⟩
      intro x hx; rw [inRanges_local]; exact l3 x hx
    refine (mem_run_cat _ _ _ _).2 ⟨⟨l.length + 1, d ++ '.'.toNat :: t⟩,
      (mem_run_chr _ _ _).2 ⟨rfl, rfl⟩, ?_⟩
    refine (mem_run_cat _ _ _ _).2 ⟨⟨l.length + 1 + d.length, '.'.toNat :: t⟩, ?_, ?_⟩
    · refine (mem_run_rep (consumes_cls domainRanges) _ _ _ _).2
        ⟨d, d1, by simp, ?_, rfl, rfl⟩
      intro x hx; rw [inRanges_domain]; exact d3 x hx
    refine (mem_run_cat _ _ _ _).2 ⟨⟨l.length + 1 + d.length + 1, t⟩,
      (mem_run_chr _ _ _).2 ⟨rfl, rfl⟩, ?_⟩
    refine (mem_run_cat _ _ _ _).2 ⟨⟨l.length + 1 + d.length + 1 + t.length, []⟩, ?_,
      (mem_run_eol _ _).2 ⟨rfl, rfl⟩⟩
    refine (mem_run_rep (consumes_cls alphaRanges) _ _ _ _).2
      ⟨t, t1, by simp, ?_, by simp, rfl⟩
    intro x hx; rw [inRanges_alpha]; exact t3 x hx

theorem emailRunes_ascii (r : List Nat) (h : EmailRunes r) : ∀ x ∈ r, x < 0x80 := by
  obtain ⟨l, d, t, rfl, ⟨_, l3⟩, ⟨_, d3⟩, ⟨_, t3⟩⟩ := h
  intro x hx
  simp only [List.mem_append, List.mem_cons] at hx
  rcases hx with hx | rfl | hx | rfl | hx
  · exact isLocalChar_lt (l3 x hx)
  · decide
  · exact isDomainChar_lt (d3 x hx)
  · decide
  · exact isAsciiLetter_lt (t3 x hx)

theorem emailRunes_map (s : GoString) : EmailRunes (s.map (fun b => b.val)) ↔ EmailShape s := by
  constructor
  · rintro ⟨l, d, t, h, ⟨l1, l3⟩, ⟨d1, d3⟩, ⟨t1, t3⟩⟩
    obtain ⟨sl, s1, rfl, rfl, h1⟩ := List.map_eq_append_iff.1 h
    obtain ⟨b1, s2, rfl, hb1, h2⟩ := List.map_eq_cons_iff.1 h1
    obtain ⟨sd, s3, rfl, rfl, h3⟩ := List.map_eq_append_iff.1 h2
    obtain ⟨b2, st, rfl, hb2, rfl⟩ := List.map_eq_cons_iff.1 h3
    rw [List.length_map] at l1 d1 t1
    refine ⟨sl, sd, st, ?_, ?_, ?_, ?_, ?_, t1, ?_⟩
    · rw [byte_val_eq (by decide) hb1, byte_val_eq (by decide) hb2]
    · rintro rfl; simp at l1
    · intro b hb; exact l3 _ (List.mem_map.2 ⟨b, hb, rfl⟩)
    · rintro rfl; simp at d1
    · intro b hb; exact d3 _ (List.mem_map.2 ⟨b, hb, rfl⟩)
    · intro b hb; exact t3 _ (List.mem_map.2 ⟨b, hb, rfl⟩)
  · rintro ⟨l, d, t, rfl, l1, l3, d1, d3, t1, t3⟩
    refine ⟨l.map (fun b => b.val), d.map (fun b => b.val), t.map (fun b => b.val), ?_,
      ⟨?_, ?_⟩, ⟨?_, ?_⟩, ⟨by simpa using t1, ?_⟩⟩
    · simp only [List.map_append, List.map_cons]; rfl
    · rw [List.length_map]; exact List.length_pos.2 l1
    · intro x hx; obtain ⟨b, hb, rfl⟩ := List.mem_map.1 hx; exact l3 b hb
    · rw [List.length_map]; exact List.length_pos.2 d1
    · intro x hx; obtain ⟨b, hb, rfl⟩ := List.mem_map.1 hx; exact d3 b hb
    · intro x hx; obtain ⟨b, hb, rfl⟩ := List.mem_map.1 hx; exact t3 b hb

/-- The email pattern matches exactly the strings of the email shape. -/
theorem matchString_emailPattern (s : GoString) :
    MatchString emailPattern s = true ↔ EmailShape s := by
  rw [matchString_email_runes, runes_bridge EmailRunes emailRunes_ascii, emailRunes_map]

/-! ## The validators -/

/-- Acceptance by `isValidPassword`, on bytes. -/
theorem isValidPassword_eq_none_iff (s : GoString) :
    isValidPassword s = none ↔
      6 ≤ s.length ∧ (∃ b ∈ s, isAsciiLetter b.val = true) ∧
        (∃ b ∈ s, isAsciiDigit b.val = true) := by
  have hL := matchString_letterPattern s
  have hN := matchString_numberPattern s
  unfold isValidPassword
  split_ifs with h1 h2 h3 h4
  · subst h1; simp
  · simp; intro h; omega
  · simp only [Bool.not_eq_true', ← Bool.not_eq_true] at h3
    simp only [reduceCtorEq, false_iff]
    rintro ⟨_, h, _⟩
    exact h3 (hL.2 h)
  · simp only [Bool.not_eq_true', ← Bool.not_eq_true] at h4
    simp only [reduceCtorEq, false_iff]
    rintro ⟨_, _, h⟩
    exact h4 (hN.2 h)
  · simp only [Bool.not_eq_true', Bool.not_eq_false] at h3 h4
    simp only [true_iff]
    exact ⟨by omega, hL.1 h3, hN.1 h4⟩

theorem isValidEmail_eq_none_iff (s : GoString) : isValidEmail s = none ↔ EmailShape s := by
  have hE := matchString_emailPattern s
  unfold isValidEmail
  split_ifs with h1 h2
  · subst h1
    simp only [reduceCtorEq, false_iff]
    rintro ⟨l, d, t, h, _⟩
    simp at h
  · simp only [Bool.not_eq_true', ← Bool.not_eq_true] at h2
    simp only [reduceCtorEq, false_iff]
    exact fun h => h2 (hE.2 h)
  · simp only [Bool.not_eq_true', Bool.not_eq_false] at h2
    simp only [true_iff]
    exact hE.1 h2

theorem isValidPhone_eq_none_iff (s : GoString) : isValidPhone s = none ↔ PhoneShape s := by
  have hP := matchString_phonePattern s
  unfold isValidPhone
  split_ifs with h1 h2
  · subst h1
    simp only [reduceCtorEq, false_iff]
    rintro ⟨h, _⟩
    simp at h
  · simp only [Bool.not_eq_true', ← Bool.not_eq_true] at h2
    simp only [reduceCtorEq, false_iff]
    exact fun h => h2 (hP.2 h)
  · simp only [Bool.not_eq_true', Bool.not_eq_false] at h2
    simp only [true_iff]
    exact hP.1 h2

/-- A non-empty string that `isValidEmail` does not accept gets the format message. -/
theorem isValidEmail_of_not_shape (s : GoString) (hs : s ≠ []) (h : ¬ EmailShape s) :
    isValidEmail s = some (ErrInvalidArgument.WithMessage "invalid email format") := by
  have hE := matchString_emailPattern s
  unfold isValidEmail
  rw [if_neg hs]
  have h2 : MatchString emailPattern s = false := by
    rw [← Bool.not_eq_true]
    exact fun hc => h (hE.1 hc)
  simp [h2]

/-- A non-empty string that `isValidPhone` does not accept gets the format message. -/
theorem isValidPhone_of_not_shape (s : GoString) (hs : s ≠ []) (h : ¬ PhoneShape s) :
    isValidPhone s = some (ErrInvalidArgument.WithMessage "invalid phone format") := by
  have hP := matchString_phonePattern s
  unfold isValidPhone
  rw [if_neg hs]
  have h2 : MatchString phonePattern s = false := by
    rw [← Bool.not_eq_true]
    exact fun hc => h (hP.1 hc)
  simp [h2]

/-- A string of the email shape begins with a local character and ends with a letter. -/
theorem emailShape_ends (s : GoString) (h : EmailShape s) :
    (∃ b, s.head? = some b ∧ isLocalChar b.val = true) ∧
      (∃ b, s.getLast? = some b ∧ isAsciiLetter b.val = true) := by
  obtain ⟨l, d, t, rfl, l1, l3, d1, d3, t1, t3⟩ := h
  constructor
  · cases l with
    | nil => exact absurd rfl l1
    | cons b l => exact ⟨b, by simp, l3 b (by simp)⟩
  · have ht : t ≠ [] := by
      rintro rfl
      simp at t1
    refine ⟨t.getLast ht, ?_, t3 _ (List.getLast_mem ht)⟩
    have e : l ++ byte '@'.toNat :: (d ++ byte '.'.toNat :: t) =
        (l ++ byte '@'.toNat :: (d ++ [byte '.'.toNat])) ++ t := by simp
    rw [e, List.getLast?_append_of_ne_nil _ ht, List.getLast?_eq_getLast _ ht]

theorem byte_val (n : Nat) : (byte n).val = n % 256 := rfl

/-- The encoding of a code point is not empty; it is the code point itself when that is ASCII
and has no ASCII byte otherwise. -/
theorem encodeRune_bytes (r : Nat) :
    encodeRune r ≠ [] ∧ (r < 0x80 → encodeRune r = [byte r]) ∧
      (0x80 ≤ r → ∀ b ∈ encodeRune r, 0x80 ≤ b.val) := by
  unfold encodeRune MaxRune
  split_ifs with h1 h2 h3 h4
  · refine ⟨by simp, fun _ => rfl, fun h => by omega⟩
  · refine ⟨by simp, fun h => by omega, fun _ b hb => ?_⟩
    simp only [List.mem_cons, List.mem_singleton, List.not_mem_nil, or_false] at hb
    rcases hb with rfl | rfl <;> rw [byte_val] <;> omega
  · refine ⟨by simp, fun h => by omega, fun _ b hb => ?_⟩
    simp only [List.mem_cons, List.mem_singleton, List.not_mem_nil, or_false] at hb
    rcases hb with rfl | rfl | rfl <;> decide
  · refine ⟨by simp, fun h => by omega, fun _ b hb => ?_⟩
    simp only [List.mem_cons, List.mem_singleton, List.not_mem_nil, or_false] at hb
    rcases hb with rfl | rfl | rfl <;> rw [byte_val] <;> omega
  · refine ⟨by simp, fun h => by omega, fun _ b hb => ?_⟩
    simp only [List.mem_cons, List.mem_singleton, List.not_mem_nil, or_false] at hb
    rcases hb with rfl | rfl | rfl | rfl <;> rw [byte_val] <;> omega

/-- No byte of the encoding of a character outside an ASCII class is in the class. -/
theorem encodeRune_not_in (p : Nat → Bool) (hp : ∀ x, p x = true → x < 0x80) (r : Nat)
    (hr : p r = false) : ∀ b ∈ encodeRune r, p b.val = false := by
  intro b hb
  obtain ⟨_, h1, h2⟩ := encodeRune_bytes r
  by_cases h : r < 0x80
  · rw [h1 h] at hb
    have : b = byte r := by simpa using hb
    subst this
    rw [byte_val, Nat.mod_eq_of_lt (by omega)]
    exact hr
  · have := h2 (by omega) b hb
    rw [← Bool.not_eq_true]
    intro hc
    have := hp _ hc
    omega

/-- A string whose first byte is not a local character is rejected for its format. -/
theorem isValidEmail_bad_head (t : GoString) (b : Byte) (hb : t.head? = some b)
    (hl : isLocalChar b.val = false) :
    isValidEmail t = some (ErrInvalidArgument.WithMessage "invalid email format") := by
  apply isValidEmail_of_not_shape
  · rintro rfl
    simp at hb
  · intro h
    obtain ⟨⟨c, hc, hcl⟩, _⟩ := emailShape_ends t h
    rw [hb] at hc
    cases hc
    rw [hl] at hcl
    exact Bool.false_ne_true hcl

/-- A string whose last byte is not an ASCII letter is rejected for its format. -/
theorem isValidEmail_bad_last (t : GoString) (b : Byte) (hb : t.getLast? = some b)
    (hl : isAsciiLetter b.val = false) :
    isValidEmail t = some (ErrInvalidArgument.WithMessage "invalid email format") := by
  apply isValidEmail_of_not_shape
  · rintro rfl
    simp at hb
  · intro h
    obtain ⟨_, ⟨c, hc, hcl⟩⟩ := emailShape_ends t h
    rw [hb] at hc
    cases hc
    rw [hl] at hcl
    exact Bool.false_ne_true hcl

/-- Executing a call keeps every cell the store already has. -/
theorem exec_frame (st : Store) (c : Call) (i : Nat) (hi : i < st.length) :
    (c.exec st).1[i]? = st[i]? := by
  unfold Call.exec withMessageAt
  cases c.result with
  | none => rfl
  | some e => simp [List.getElem?_append_left hi]

theorem exec_length (st : Store) (c : Call) : st.length ≤ (c.exec st).1.length := by
  unfold Call.exec withMessageAt
  cases c.result with
  | none => simp
  | some e => simp

/-- Executing calls keeps every cell the store already has. -/
theorem execAll_frame (cs : List Call) :
    ∀ (st : Store) (i : Nat), i < st.length → (execAll st cs)[i]? = st[i]? := by
  induction cs with
  | nil => intro st i _; rfl
  | cons c cs ih =>
    intro st i hi
    simp only [execAll]
    rw [ih _ i (lt_of_lt_of_le hi (exec_length st c)), exec_frame st c i hi]

/-- A rejecting call returns the address of a fresh cell holding the value it returns. -/
theorem exec_returns (st : Store) (c : Call) (e : ErrorX) (h : c.result = some e) :
    (c.exec st).2 = some st.length ∧
      (c.exec st).1[st.length]? =
        some ((st.getD addrInvalidArgument ErrInvalidArgument).WithMessage e.Message) := by
  unfold Call.exec withMessageAt
  rw [h]
  simp

theorem rejectsWith_some (e : ErrorX) (msg : String) :
    rejectsWith (some (e.WithMessage msg)) msg = true := by
  simp [rejectsWith, ErrorX.WithMessage]

/-- A rejection of any call carries the reason and status code of the catalog entry. -/
theorem call_error_identity (c : Call) (e : ErrorX) (h : c.result = some e) :
    e.Reason = "InvalidArgument" ∧ e.Code = 400 := by
  cases c with
  | password s =>
    simp only [Call.result] at h
    unfold isValidPassword at h
    split_ifs at h <;> (cases h; exact ⟨rfl, rfl⟩)
  | email s =>
    simp only [Call.result] at h
    unfold isValidEmail at h
    split_ifs at h <;> (cases h; exact ⟨rfl, rfl⟩)
  | phone s =>
    simp only [Call.result] at h
    unfold isValidPhone at h
    split_ifs at h <;> (cases h; exact ⟨rfl, rfl⟩)

/-! ## The claims -/

/-- C1: `isValidPassword` returns no error exactly for the strings of at least 6 bytes that
contain an ASCII letter and an ASCII digit; `abc123` is accepted, the empty string, `abc12`,
`abcdef` and `123456` are rejected. -/
theorem password_acceptance_law :
    (∀ s : GoString, isValidPassword s = none ↔
      6 ≤ s.length ∧ (∃ b ∈ s, isAsciiLetter b.val = true) ∧
        (∃ b ∈ s, isAsciiDigit b.val = true)) ∧
    isValidPassword (lit "abc123") = none ∧
    isValidPassword (lit "") ≠ none ∧
    isValidPassword (lit "abc12") ≠ none ∧
    isValidPassword (lit "abcdef") ≠ none ∧
    isValidPassword (lit "123456") ≠ none :=
  ⟨isValidPassword_eq_none_iff, by decide, by decide, by decide, by decide, by decide⟩

/-- C2: a rejected password gets the message of the earliest failing check in the order
empty, length, letter, digit, whatever later checks would say; the empty string, `abc12`,
`123456` and `abcdef` get the four messages in that order. -/
theorem password_first_failure :
    (∀ s : GoString,
      (s = [] → rejectsWith (isValidPassword s) "password cannot be empty" = true) ∧
      (s ≠ [] → s.length < 6 →
        rejectsWith (isValidPassword s) "password must be at least 6 characters long" = true) ∧
      (6 ≤ s.length → (∀ b ∈ s, isAsciiLetter b.val = false) →
        rejectsWith (isValidPassword s) "password must contain at least one letter" = true) ∧
      (6 ≤ s.length → (∃ b ∈ s, isAsciiLetter b.val = true) →
        (∀ b ∈ s, isAsciiDigit b.val = false) →
        rejectsWith (isValidPassword s) "password must contain at least one number" = true)) ∧
    rejectsWith (isValidPassword (lit "")) "password cannot be empty" = true ∧
    rejectsWith (isValidPassword (lit "abc12"))
      "password must be at least 6 characters long" = true ∧
    rejectsWith (isValidPassword (lit "123456"))
      "password must contain at least one letter" = true ∧
    rejectsWith (isValidPassword (lit "abcdef"))
      "password must contain at least one number" = true := by
  refine ⟨fun s => ⟨?_, ?_, ?_, ?_⟩, by decide, by decide, by decide, by decide⟩
  · rintro rfl
    decide
  · intro h1 h2
    unfold isValidPassword
    rw [if_neg h1, if_pos h2]
    exact rejectsWith_some _ _
  · intro h1 h2
    have hL : MatchString letterPattern s = false := by
      rw [← Bool.not_eq_true]
      intro hc
      obtain ⟨b, hb, hl⟩ := (matchString_letterPattern s).1 hc
      rw [h2 b hb] at hl
      exact Bool.false_ne_true hl
    have h0 : s ≠ [] := by
      rintro rfl
      simp at h1
    unfold isValidPassword
    rw [if_neg h0, if_neg (by omega)]
    simp only [hL, Bool.not_false, if_true]
    exact rejectsWith_some _ _
  · intro h1 h2 h3
    have hL : MatchString letterPattern s = true := (matchString_letterPattern s).2 h2
    have hN : MatchString numberPattern s = false := by
      rw [← Bool.not_eq_true]
      intro hc
      obtain ⟨b, hb, hl⟩ := (matchString_numberPattern s).1 hc
      rw [h3 b hb] at hl
      exact Bool.false_ne_true hl
    have h0 : s ≠ [] := by
      rintro rfl
      simp at h1
    unfold isValidPassword
    rw [if_neg h0, if_neg (by omega)]
    simp only [hL, hN, Bool.not_true, Bool.not_false, if_true, Bool.false_eq_true, if_false]
    exact rejectsWith_some _ _

/-- C3: `isValidUsername` is true exactly for the strings of 3 to 20 bytes all of whose bytes
are in `[A-Za-z0-9_]`, so the two patterns together equal the byte-count law on every input;
`ab` and `validname!` are refused, `alice_01` is accepted. -/
theorem username_acceptance_law :
    (∀ s : GoString, isValidUsername s = true ↔
      (3 ≤ s.length ∧ s.length ≤ 20) ∧ ∀ b ∈ s, isWordChar b.val = true) ∧
    isValidUsername (lit "ab") = false ∧
    isValidUsername (lit "alice_01") = true ∧
    isValidUsername (lit "validname!") = false :=
  ⟨isValidUsername_iff, by decide, by decide, by decide⟩

/-- C4: `isValidPhone` returns no error exactly for the strings of 11 bytes, all ASCII digits,
the first `1` and the second one of `3` to `9`; `13912345678` is accepted, `12912345678` and
the ten-digit `1391234567` are rejected. -/
theorem phone_acceptance_law :
    (∀ s : GoString, isValidPhone s = none ↔ PhoneShape s) ∧
    isValidPhone (lit "13912345678") = none ∧
    isValidPhone (lit "12912345678") ≠ none ∧
    isValidPhone (lit "1391234567") ≠ none :=
  ⟨isValidPhone_eq_none_iff, by decide, by decide, by decide⟩

/-- C5: `isValidEmail` answers "email cannot be empty" for the empty string, "invalid email
format" for a non-empty string that is not of the email shape, and no error for a string of
the email shape; `a@b.co` is accepted, `a@b` and the empty string get the two messages. -/
theorem email_outcomes :
    (∀ s : GoString,
      (s = [] → rejectsWith (isValidEmail s) "email cannot be empty" = true) ∧
      (s ≠ [] → ¬ EmailShape s → rejectsWith (isValidEmail s) "invalid email format" = true) ∧
      (EmailShape s → isValidEmail s = none)) ∧
    isValidEmail (lit "a@b.co") = none ∧
    rejectsWith (isValidEmail (lit "a@b")) "invalid email format" = true ∧
    rejectsWith (isValidEmail (lit "")) "email cannot be empty" = true := by
  refine ⟨fun s => ⟨?_, ?_, ?_⟩, by decide, by decide, by decide⟩
  · rintro rfl
    decide
  · intro h1 h2
    rw [isValidEmail_of_not_shape s h1 h2]
    exact rejectsWith_some _ _
  · exact (isValidEmail_eq_none_iff s).2

/-- C6: the email pattern is anchored at both ends: an accepted string begins with a local
character and ends with an ASCII letter, so a character (or a raw byte) outside
`[A-Za-z0-9._%+-]` put before it, or one that is not an ASCII letter put after it, gives
"invalid email format". -/
theorem email_anchoring (s : GoString) (h : isValidEmail s = none) :
    (∃ b, s.head? = some b ∧ isLocalChar b.val = true) ∧
    (∃ b, s.getLast? = some b ∧ isAsciiLetter b.val = true) ∧
    (∀ c : Char, isLocalChar c.toNat = false →
      rejectsWith (isValidEmail (encodeRune c.toNat ++ s)) "invalid email format" = true) ∧
    (∀ c : Char, isAsciiLetter c.toNat = false →
      rejectsWith (isValidEmail (s ++ encodeRune c.toNat)) "invalid email format" = true) ∧
    (∀ b : Byte, isLocalChar b.val = false →
      rejectsWith (isValidEmail (b :: s)) "invalid email format" = true) ∧
    (∀ b : Byte, isAsciiLetter b.val = false →
      rejectsWith (isValidEmail (s ++ [b])) "invalid email format" = true) := by
  have hs := emailShape_ends s ((isValidEmail_eq_none_iff s).1 h)
  refine ⟨hs.1, hs.2, ?_, ?_, ?_, ?_⟩
  · intro c hc
    obtain ⟨hne, _, _⟩ := encodeRune_bytes c.toNat
    obtain ⟨b, bs, hb⟩ := List.exists_cons_of_ne_nil hne
    have hl := encodeRune_not_in isLocalChar (fun x hx => isLocalChar_lt hx) c.toNat hc b
      (by rw [hb]; simp)
    rw [isValidEmail_bad_head _ b (by rw [hb]; simp) hl]
    exact rejectsWith_some _ _
  · intro c hc
    obtain ⟨hne, _, _⟩ := encodeRune_bytes c.toNat
    have hl := encodeRune_not_in isAsciiLetter (fun x hx => isAsciiLetter_lt hx) c.toNat hc
      ((encodeRune c.toNat).getLast hne) (List.getLast_mem hne)
    rw [isValidEmail_bad_last _ ((encodeRune c.toNat).getLast hne)
      (by rw [List.getLast?_append_of_ne_nil _ hne, List.getLast?_eq_getLast _ hne]) hl]
    exact rejectsWith_some _ _
  · intro b hb
    rw [isValidEmail_bad_head _ b (by simp) hb]
    exact rejectsWith_some _ _
  · intro b hb
    rw [isValidEmail_bad_last _ b (by simp) hb]
    exact rejectsWith_some _ _

/-- C6 at `a@b.co`: a space before it, a space after it and a newline after it are each
rejected with "invalid email format". -/
theorem email_anchoring_witness :
    isValidEmail (lit "a@b.co") = none ∧
    rejectsWith (isValidEmail (lit " a@b.co")) "invalid email format" = true ∧
    rejectsWith (isValidEmail (lit "a@b.co ")) "invalid email format" = true ∧
    rejectsWith (isValidEmail (lit "a@b.co\n")) "invalid email format" = true :=
  ⟨by decide,
    (email_anchoring (lit "a@b.co") (by decide)).2.2.1 ' ' (by decide),
    (email_anchoring (lit "a@b.co") (by decide)).2.2.2.1 ' ' (by decide),
    (email_anchoring (lit "a@b.co") (by decide)).2.2.2.1 '\n' (by decide)⟩

/-- C7: an error returned by `isValidPassword`, `isValidEmail` or `isValidPhone` has the
reason `InvalidArgument` and the status code 400, whatever its message. -/
theorem validator_error_identity (s : GoString) (e : ErrorX) :
    (isValidPassword s = some e → e.Reason = "InvalidArgument" ∧ e.Code = 400) ∧
    (isValidEmail s = some e → e.Reason = "InvalidArgument" ∧ e.Code = 400) ∧
    (isValidPhone s = some e → e.Reason = "InvalidArgument" ∧ e.Code = 400) := by
  refine ⟨?_, ?_, ?_⟩
  · unfold isValidPassword
    intro h
    split_ifs at h <;> (cases h; exact ⟨rfl, rfl⟩)
  · unfold isValidEmail
    intro h
    split_ifs at h <;> (cases h; exact ⟨rfl, rfl⟩)
  · unfold isValidPhone
    intro h
    split_ifs at h <;> (cases h; exact ⟨rfl, rfl⟩)

/-- C8: a phone rejected by `isValidPhone` gets "phone cannot be empty" exactly when it is the
empty string and "invalid phone format" when it is non-empty; a non-empty string that is not
of the phone shape is rejected; no other message occurs. -/
theorem phone_messages (s : GoString) :
    (∀ e, isValidPhone s = some e →
      (e.Message = "phone cannot be empty" ↔ s = []) ∧
      (s ≠ [] → e.Message = "invalid phone format") ∧
      (e.Message = "phone cannot be empty" ∨ e.Message = "invalid phone format")) ∧
    (s = [] → rejectsWith (isValidPhone s) "phone cannot be empty" = true) ∧
    (s ≠ [] → ¬ PhoneShape s → rejectsWith (isValidPhone s) "invalid phone format" = true) := by
  refine ⟨?_, ?_, ?_⟩
  · intro e h
    by_cases hs : s = []
    · subst hs
      have : e = ErrInvalidArgument.WithMessage "phone cannot be empty" := by
        simpa [isValidPhone] using h.symm
      subst this
      exact ⟨by simp [ErrorX.WithMessage], fun h => absurd rfl h, Or.inl rfl⟩
    · have hn : ¬ PhoneShape s := by
        intro hp
        rw [(isValidPhone_eq_none_iff s).2 hp] at h
        cases h
      rw [isValidPhone_of_not_shape s hs hn] at h
      cases h
      refine ⟨?_, fun _ => rfl, Or.inr rfl⟩
      simp only [ErrorX.WithMessage, hs, iff_false]
      decide
  · rintro rfl
    decide
  · intro h1 h2
    rw [isValidPhone_of_not_shape s h1 h2]
    exact rejectsWith_some _ _

/-- C9: `WithMessage` gives a value with the status code and reason of its base and the given
message; whatever calls of the validators are executed, the cell of the catalog entry
`ErrInvalidArgument` still holds message "Invalid argument", status 400 and reason
"InvalidArgument", and the error a rejecting call returned is still in its cell, with the
message it was returned with, after any later calls. -/
theorem withMessage_derivation :
    (∀ (e : ErrorX) (msg : String),
      (e.WithMessage msg).Code = e.Code ∧ (e.WithMessage msg).Reason = e.Reason ∧
        (e.WithMessage msg).Message = msg) ∧
    (∀ cs : List Call,
      (execAll initStore cs)[addrInvalidArgument]? = some ErrInvalidArgument) ∧
    (ErrInvalidArgument.Message = "Invalid argument" ∧ ErrInvalidArgument.Code = 400 ∧
      ErrInvalidArgument.Reason = "InvalidArgument") ∧
    (∀ (before later : List Call) (c : Call) (e : ErrorX), c.result = some e →
      ∃ a, (c.exec (execAll initStore before)).2 = some a ∧
        (c.exec (execAll initStore before)).1[a]? = some e ∧
        (execAll (c.exec (execAll initStore before)).1 later)[a]? = some e) := by
  refine ⟨fun e msg => ⟨rfl, rfl, rfl⟩, ?_, ⟨rfl, rfl, rfl⟩, ?_⟩
  · intro cs
    rw [execAll_frame cs initStore addrInvalidArgument (by decide)]
    rfl
  · intro before later c e he
    have h0 : (execAll initStore before)[addrInvalidArgument]? = some ErrInvalidArgument := by
      rw [execAll_frame before initStore addrInvalidArgument (by decide)]
      rfl
    have hd : (execAll initStore before).getD addrInvalidArgument ErrInvalidArgument =
        ErrInvalidArgument := by
      rw [List.getD_eq_getElem?_getD, h0]
      rfl
    obtain ⟨h1, h2⟩ := exec_returns (execAll initStore before) c e he
    rw [hd] at h2
    have he2 : ErrInvalidArgument.WithMessage e.Message = e := by
      have hid := call_error_identity c e he
      obtain ⟨code, reason, message⟩ := e
      simp only at hid
      obtain ⟨rfl, rfl⟩ := hid
      rfl
    rw [he2] at h2
    refine ⟨_, h1, h2, ?_⟩
    rw [execAll_frame later _ _ ?_, h2]
    by_contra hlt
    rw [List.getElem?_eq_none (by omega)] at h2
    cases h2

/-- C10: the catalog entry `ErrPostNotFound` has status code 404, reason
"NotFound.PostNotFound" and message "Post not found.". -/
theorem errPostNotFound_fields :
    ErrPostNotFound.Code = 404 ∧ StatusNotFound = 404 ∧
    ErrPostNotFound.Reason = "NotFound.PostNotFound" ∧
    ErrPostNotFound.Message = "Post not found." :=
  ⟨rfl, rfl, rfl, rfl⟩

/-! ## Further lemmas for the behaviour claims -/

/-- A string has at most as many runes as bytes. -/
theorem runesAux_length_le (s : GoString) : ∀ k, (runesAux k s).length ≤ s.length := by
  induction s with
  | nil => intro k; simp [runesAux]
  | cons b bs ih =>
    intro k
    cases k with
    | zero =>
      simp only [runesAux, List.length_cons]
      have := ih ((decodeRune (b :: bs)).2 - 1)
      omega
    | succ k =>
      simp only [runesAux, List.length_cons]
      have := ih k
      omega

theorem runes_length_le (s : GoString) : (runes s).length ≤ s.length :=
  runesAux_length_le s 0

/-- A string of the email shape is ASCII, has at least 6 bytes and exactly one `@`. -/
theorem emailShape_facts (s : GoString) (h : EmailShape s) :
    6 ≤ s.length ∧ (∀ b ∈ s, b.val < 0x80) ∧ s.count (byte '@'.toNat) = 1 := by
  obtain ⟨l, d, t, rfl, l1, l3, d1, d3, t1, t3⟩ := h
  have hl := List.length_pos.2 l1
  have hd := List.length_pos.2 d1
  refine ⟨by simp only [List.length_append, List.length_cons]; omega, ?_, ?_⟩
  · intro b hb
    simp only [List.mem_append, List.mem_cons] at hb
    rcases hb with hb | rfl | hb | rfl | hb
    · exact isLocalChar_lt (l3 b hb)
    · decide
    · exact isDomainChar_lt (d3 b hb)
    · decide
    · exact isAsciiLetter_lt (t3 b hb)
  · have c1 : l.count (byte '@'.toNat) = 0 := by
      rw [List.count_eq_zero]
      intro hm
      exact absurd (l3 _ hm) (by decide)
    have c2 : d.count (byte '@'.toNat) = 0 := by
      rw [List.count_eq_zero]
      intro hm
      exact absurd (d3 _ hm) (by decide)
    have c3 : t.count (byte '@'.toNat) = 0 := by
      rw [List.count_eq_zero]
      intro hm
      exact absurd (t3 _ hm) (by decide)
    have hne : (byte '.'.toNat == byte '@'.toNat) = false := by decide
    simp only [List.count_append, List.count_cons, c1, c2, c3, hne, beq_self_eq_true]
    simp

/-- A string of the phone shape has 11 bytes, all ASCII digits. -/
theorem phoneShape_digits (s : GoString) (h : PhoneShape s) :
    s.length = 11 ∧ ∀ b ∈ s, isAsciiDigit b.val = true :=
  ⟨h.1, h.2.1⟩

/-- An element of a store is below its length. -/
theorem store_lt_of_getElem? {st : Store} {i : Nat} {e : ErrorX} (h : st[i]? = some e) :
    i < st.length := by
  obtain ⟨hi, _⟩ := List.getElem?_eq_some.1 h
  exact hi

/-- The `WithMessage` of the specification, which copies, meets what the checks need. -/
theorem withMessageAt_spec : WithMessageSpec withMessageAt := by
  constructor
  · intro st base msg e h
    have hd : st.getD base ErrInvalidArgument = e := by
      rw [List.getD_eq_getElem?_getD, h]
      rfl
    simp only [withMessageAt, hd]
    exact List.getElem?_concat_length _ _
  · intro st base msg i e h
    refine ⟨e, ?_, rfl, rfl⟩
    simp only [withMessageAt]
    rw [List.getElem?_append_left (store_lt_of_getElem? h)]
    exact h

/-- A `WithMessage` that overwrites its receiver meets what the checks need as well. -/
theorem withMessageInPlace_spec : WithMessageSpec withMessageInPlace := by
  constructor
  · intro st base msg e h
    have hd : st.getD base ErrInvalidArgument = e := by
      rw [List.getD_eq_getElem?_getD, h]
      rfl
    simp only [withMessageInPlace, hd]
    exact List.getElem?_set_self (store_lt_of_getElem? h)
  · intro st base msg i e h
    simp only [withMessageInPlace]
    by_cases hb : base = i
    · subst hb
      have hd : st.getD base ErrInvalidArgument = e := by
        rw [List.getD_eq_getElem?_getD, h]
        rfl
      rw [hd, List.getElem?_set_self (store_lt_of_getElem? h)]
      exact ⟨_, rfl, rfl, rfl⟩
    · rw [List.getElem?_set_ne hb]
      exact ⟨e, h, rfl, rfl⟩

theorem World.ok_init (σ : Type) : (World.init σ).Ok :=
  ⟨rfl, rfl, ErrInvalidArgument, rfl, rfl, rfl⟩

theorem World.ok_reject {σ : Type} {wm : WithMessageFn} (hwm : WithMessageSpec wm)
    (w : World σ) (msg : String) (h : w.Ok) : (w.reject wm msg).1.Ok := by
  obtain ⟨h1, h2, e, h3, h4, h5⟩ := h
  obtain ⟨e1, g1, g2, g3⟩ := hwm.frame w.errors addrInvalidArgument msg addrInvalidArgument e h3
  exact ⟨h1, h2, e1, g1, g2.trans h4, g3.trans h5⟩

/-- A rejection in a good world is seen as the catalog entry with the message replaced. -/
theorem World.errorOf_reject {σ : Type} {wm : WithMessageFn} (hwm : WithMessageSpec wm)
    (w : World σ) (msg : String) (h : w.Ok) :
    World.errorOf (w.reject wm msg) = some (ErrInvalidArgument.WithMessage msg) := by
  obtain ⟨_, _, e, h3, h4, h5⟩ := h
  have hr := hwm.result w.errors addrInvalidArgument msg e h3
  simp only [World.errorOf, World.reject]
  rw [hr]
  simp [ErrorX.WithMessage, h4, h5]

theorem World.errorOf_accept {σ : Type} (w : World σ) :
    World.errorOf ((w, none) : World σ × Option Nat) = none := rfl

theorem World.ok_step {σ : Type} {wm : WithMessageFn} (hwm : WithMessageSpec wm)
    (w : World σ) (a : Action σ) (h : w.Ok) : (w.step wm a).Ok := by
  cases a with
  | new store => exact h
  | username x =>
    simp only [World.step, World.isValidUsername]
    split_ifs <;> exact h
  | password x =>
    simp only [World.step, World.isValidPassword]
    split_ifs <;> first | exact World.ok_reject hwm w _ h | exact h
  | email x =>
    simp only [World.step, World.isValidEmail]
    split_ifs <;> first | exact World.ok_reject hwm w _ h | exact h
  | phone x =>
    simp only [World.step, World.isValidPhone]
    split_ifs <;> first | exact World.ok_reject hwm w _ h | exact h

/-- Every world a history leads to is good. -/
theorem World.ok_run {σ : Type} {wm : WithMessageFn} (hwm : WithMessageSpec wm)
    (hist : List (Action σ)) : ∀ w : World σ, w.Ok → (World.run wm w hist).Ok := by
  induction hist with
  | nil => intro w h; exact h
  | cons a rest ih => intro w h; exact ih _ (World.ok_step hwm w a h)

/-- In a good world the four checks return what the functions of the input alone say. -/
theorem World.checks_eq {σ : Type} {wm : WithMessageFn} (hwm : WithMessageSpec wm)
    (w : World σ) (h : w.Ok) (x : GoString) :
    (w.isValidUsername x).2 = Miniblog.isValidUsername x ∧
    World.errorOf (w.isValidPassword wm x) = Miniblog.isValidPassword x ∧
    World.errorOf (w.isValidEmail wm x) = Miniblog.isValidEmail x ∧
    World.errorOf (w.isValidPhone wm x) = Miniblog.isValidPhone x := by
  refine ⟨?_, ?_, ?_, ?_⟩
  · simp only [World.isValidUsername, Miniblog.isValidUsername, h.1, h.2.1]
    split_ifs <;> rfl
  · simp only [World.isValidPassword, Miniblog.isValidPassword]
    split_ifs <;> first | exact World.errorOf_reject hwm w _ h | rfl
  · simp only [World.isValidEmail, Miniblog.isValidEmail]
    split_ifs <;> first | exact World.errorOf_reject hwm w _ h | rfl
  · simp only [World.isValidPhone, Miniblog.isValidPhone]
    split_ifs <;> first | exact World.errorOf_reject hwm w _ h | rfl

/-- A check leaves the package variables and the validators as they were. -/
theorem World.checks_frame {σ : Type} (wm : WithMessageFn) (w : World σ) (x : GoString) :
    (w.isValidUsername x).1 = w ∧
    ((w.isValidPassword wm x).1.lengthRegex = w.lengthRegex ∧
      (w.isValidPassword wm x).1.validRegex = w.validRegex ∧
      (w.isValidPassword wm x).1.validators = w.validators) ∧
    ((w.isValidEmail wm x).1.lengthRegex = w.lengthRegex ∧
      (w.isValidEmail wm x).1.validRegex = w.validRegex ∧
      (w.isValidEmail wm x).1.validators = w.validators) ∧
    ((w.isValidPhone wm x).1.lengthRegex = w.lengthRegex ∧
      (w.isValidPhone wm x).1.validRegex = w.validRegex ∧
      (w.isValidPhone wm x).1.validators = w.validators) := by
  refine ⟨?_, ?_, ?_, ?_⟩
  · simp only [World.isValidUsername]
    split_ifs <;> rfl
  · simp only [World.isValidPassword]
    split_ifs <;> exact ⟨rfl, rfl, rfl⟩
  · simp only [World.isValidEmail]
    split_ifs <;> exact ⟨rfl, rfl, rfl⟩
  · simp only [World.isValidPhone]
    split_ifs <;> exact ⟨rfl, rfl, rfl⟩

/-- C11: password acceptance has no upper length bound and no restriction on other characters:
an accepted password stays accepted when any string at all is put after it or before it. -/
theorem password_extension (s t : GoString) (h : isValidPassword s = none) :
    isValidPassword (s ++ t) = none ∧ isValidPassword (t ++ s) = none := by
  obtain ⟨h1, ⟨a, ha, hla⟩, ⟨d, hd, hdd⟩⟩ := (isValidPassword_eq_none_iff s).1 h
  constructor
  · refine (isValidPassword_eq_none_iff _).2 ⟨?_, ⟨a, ?_, hla⟩, ⟨d, ?_, hdd⟩⟩
    · rw [List.length_append]; omega
    · exact List.mem_append_left _ ha
    · exact List.mem_append_left _ hd
  · refine (isValidPassword_eq_none_iff _).2 ⟨?_, ⟨a, ?_, hla⟩, ⟨d, ?_, hdd⟩⟩
    · rw [List.length_append]; omega
    · exact List.mem_append_right _ ha
    · exact List.mem_append_right _ hd

/-- C11 at `abc123` extended by a string with a space, a symbol, a non-ASCII character and a
newline, on either side. -/
theorem password_extension_witness :
    isValidPassword (lit "abc123") = none ∧
    isValidPassword (lit "abc123" ++ lit " !é\n") = none ∧
    isValidPassword (lit " !é\n" ++ lit "abc123") = none :=
  ⟨by decide, password_extension (lit "abc123") (lit " !é\n") (by decide)⟩

/-- C12: the minimum length of a password is 6, counted in bytes and not in characters: a
non-empty string of fewer than 6 bytes is rejected for its length whatever it contains, a
string of at least 6 bytes with an ASCII letter and an ASCII digit is accepted however few
characters it has, so `ééa1` (4 characters, 6 bytes) is accepted while `abc1` (4 characters,
4 bytes) and `éab1` (4 characters, 5 bytes) are rejected for their length; hence some string
of fewer than 6 characters is accepted, and every string of at least 6 characters with an
ASCII letter and an ASCII digit is accepted. -/
theorem password_length_in_bytes :
    (∀ s : GoString, s ≠ [] → s.length < 6 →
      rejectsWith (isValidPassword s) "password must be at least 6 characters long" = true) ∧
    (∀ s : GoString, s.length < 6 → isValidPassword s ≠ none) ∧
    (∀ s : GoString, 6 ≤ s.length → (∃ b ∈ s, isAsciiLetter b.val = true) →
      (∃ b ∈ s, isAsciiDigit b.val = true) → isValidPassword s = none) ∧
    (∀ s : GoString, 6 ≤ s.length →
      rejectsWith (isValidPassword s) "password must be at least 6 characters long" = false) ∧
    (∃ s : GoString, (runes s).length < 6 ∧ isValidPassword s = none) ∧
    ((runes (lit "ééa1")).length = 4 ∧ (lit "ééa1").length = 6 ∧
      isValidPassword (lit "ééa1") = none) ∧
    ((runes (lit "abc1")).length = 4 ∧ (lit "abc1").length = 4 ∧
      rejectsWith (isValidPassword (lit "abc1"))
        "password must be at least 6 characters long" = true) ∧
    ((runes (lit "éab1")).length = 4 ∧ (lit "éab1").length = 5 ∧
      rejectsWith (isValidPassword (lit "éab1"))
        "password must be at least 6 characters long" = true) ∧
    (∀ s : GoString, (runes s).length ≤ s.length) ∧
    (∀ s : GoString, 6 ≤ (runes s).length → (∃ b ∈ s, isAsciiLetter b.val = true) →
      (∃ b ∈ s, isAsciiDigit b.val = true) → isValidPassword s = none) := by
  refine ⟨?_, ?_, ?_, ?_, ⟨lit "ééa1", by decide, by decide⟩, ⟨by decide, by decide, by decide⟩,
    ⟨by decide, by decide, by decide⟩, ⟨by decide, by decide, by decide⟩, runes_length_le, ?_⟩
  · intro s h1 h2
    unfold isValidPassword
    rw [if_neg h1, if_pos h2]
    exact rejectsWith_some _ _
  · intro s h1 h
    have := ((isValidPassword_eq_none_iff s).1 h).1
    omega
  · intro s h1 h2 h3
    exact (isValidPassword_eq_none_iff s).2 ⟨h1, h2, h3⟩
  · intro s h1
    have h0 : s ≠ [] := by
      rintro rfl
      simp at h1
    unfold isValidPassword
    rw [if_neg h0, if_neg (by omega)]
    split_ifs <;> decide
  · intro s h1 h2 h3
    have := runes_length_le s
    exact (isValidPassword_eq_none_iff s).2 ⟨by omega, h2, h3⟩

/-- C13: purity of the four checks.  Run in any state of the program, reached through any
history of validators built by `New` on any stores and of earlier calls of the checks, with
any `WithMessage` that keeps status code and reason, each check returns what a function of the
input string alone returns, so two calls on the same input agree whatever the validators,
their stores and the earlier calls; a check changes neither the package variables nor the
validators. -/
theorem validators_pure (σ τ : Type) (wm : WithMessageFn) (hwm : WithMessageSpec wm)
    (hist1 : List (Action σ)) (hist2 : List (Action τ)) (x : GoString) :
    (((World.run wm (World.init σ) hist1).isValidUsername x).2 =
        ((World.run wm (World.init τ) hist2).isValidUsername x).2 ∧
      World.errorOf ((World.run wm (World.init σ) hist1).isValidPassword wm x) =
        World.errorOf ((World.run wm (World.init τ) hist2).isValidPassword wm x) ∧
      World.errorOf ((World.run wm (World.init σ) hist1).isValidEmail wm x) =
        World.errorOf ((World.run wm (World.init τ) hist2).isValidEmail wm x) ∧
      World.errorOf ((World.run wm (World.init σ) hist1).isValidPhone wm x) =
        World.errorOf ((World.run wm (World.init τ) hist2).isValidPhone wm x)) ∧
    (((World.run wm (World.init σ) hist1).isValidUsername x).2 = isValidUsername x ∧
      World.errorOf ((World.run wm (World.init σ) hist1).isValidPassword wm x) =
        isValidPassword x ∧
      World.errorOf ((World.run wm (World.init σ) hist1).isValidEmail wm x) =
        isValidEmail x ∧
      World.errorOf ((World.run wm (World.init σ) hist1).isValidPhone wm x) =
        isValidPhone x) ∧
    (((World.run wm (World.init σ) hist1).isValidUsername x).1 =
        World.run wm (World.init σ) hist1 ∧
      ((World.run wm (World.init σ) hist1).isValidPassword wm x).1.validators =
        (World.run wm (World.init σ) hist1).validators ∧
      ((World.run wm (World.init σ) hist1).isValidEmail wm x).1.validators =
        (World.run wm (World.init σ) hist1).validators ∧
      ((World.run wm (World.init σ) hist1).isValidPhone wm x).1.validators =
        (World.run wm (World.init σ) hist1).validators) := by
  have h1 := World.checks_eq hwm _ (World.ok_run hwm hist1 _ (World.ok_init σ)) x
  have h2 := World.checks_eq hwm _ (World.ok_run hwm hist2 _ (World.ok_init τ)) x
  have h3 := World.checks_frame wm (World.run wm (World.init σ) hist1) x
  refine ⟨⟨?_, ?_, ?_, ?_⟩, h1, ⟨h3.1, h3.2.1.2.2, h3.2.2.1.2.2, h3.2.2.2.2.2⟩⟩
  · rw [h1.1, h2.1]
  · rw [h1.2.1, h2.2.1]
  · rw [h1.2.2.1, h2.2.2.1]
  · rw [h1.2.2.2, h2.2.2.2]

/-- C13 at two histories: one with a validator on the store `7`, a rejected password and a
rejected phone before the call; the other with two validators on the stores `"a"` and `"b"`
and a rejected email; the password `abc12` gets the same error in both, with a `WithMessage`
that copies its receiver and with one that overwrites it. -/
theorem validators_pure_witness :
    World.errorOf ((World.run withMessageAt (World.init Nat)
        [Action.new 7, Action.password (lit ""), Action.phone (lit "12")]).isValidPassword
          withMessageAt (lit "abc12")) =
      World.errorOf ((World.run withMessageAt (World.init String)
        [Action.new "a", Action.new "b", Action.email (lit "a@b")]).isValidPassword
          withMessageAt (lit "abc12")) ∧
    World.errorOf ((World.run withMessageInPlace (World.init Nat)
        [Action.new 7, Action.password (lit ""), Action.phone (lit "12")]).isValidPassword
          withMessageInPlace (lit "abc12")) =
      World.errorOf ((World.run withMessageInPlace (World.init String)
        [Action.new "a", Action.new "b", Action.email (lit "a@b")]).isValidPassword
          withMessageInPlace (lit "abc12")) :=
  ⟨(validators_pure Nat String withMessageAt withMessageAt_spec
      [Action.new 7, Action.password (lit ""), Action.phone (lit "12")]
      [Action.new "a", Action.new "b", Action.email (lit "a@b")] (lit "abc12")).1.2.1,
    (validators_pure Nat String withMessageInPlace withMessageInPlace_spec
      [Action.new 7, Action.password (lit ""), Action.phone (lit "12")]
      [Action.new "a", Action.new "b", Action.email (lit "a@b")] (lit "abc12")).1.2.1⟩

/-- C14, as stated, fails at the empty string: it has no `@`, and it is rejected with "email
cannot be empty", not with "invalid email format". -/
theorem email_no_at_counterexample :
    (lit "").count (byte '@'.toNat) = 0 ∧
    rejectsWith (isValidEmail (lit "")) "invalid email format" = false ∧
    rejectsWith (isValidEmail (lit "")) "email cannot be empty" = true := by
  decide

/-- C14, amended: every string `isValidEmail` accepts contains exactly one `@`, and every
non-empty string with no `@` or with two or more is rejected with "invalid email format", as
`a@b@c.co` is; the empty string is rejected with "email cannot be empty". -/
theorem email_exactly_one_at :
    (∀ s : GoString, isValidEmail s = none → s.count (byte '@'.toNat) = 1) ∧
    (∀ s : GoString, s ≠ [] → (s.count (byte '@'.toNat) = 0 ∨ 2 ≤ s.count (byte '@'.toNat)) →
      rejectsWith (isValidEmail s) "invalid email format" = true) ∧
    ((lit "a@b@c.co").count (byte '@'.toNat) = 2 ∧
      rejectsWith (isValidEmail (lit "a@b@c.co")) "invalid email format" = true) ∧
    rejectsWith (isValidEmail []) "email cannot be empty" = true := by
  refine ⟨?_, ?_, ⟨by decide, by decide⟩, by decide⟩
  · intro s h
    exact (emailShape_facts s ((isValidEmail_eq_none_iff s).1 h)).2.2
  · intro s hs hc
    have hn : ¬ EmailShape s := by
      intro h
      have := (emailShape_facts s h).2.2
      omega
    rw [isValidEmail_of_not_shape s hs hn]
    exact rejectsWith_some _ _

/-- C15: every string `isValidEmail` accepts has at least 6 characters, all ASCII; `a@b.co`
with its 6 characters is accepted, and every non-empty string of at most 5 characters is
rejected with "invalid email format". -/
theorem email_min_length :
    (∀ s : GoString, isValidEmail s = none →
      6 ≤ s.length ∧ 6 ≤ (runes s).length ∧ ∀ b ∈ s, b.val < 0x80) ∧
    ((lit "a@b.co").length = 6 ∧ isValidEmail (lit "a@b.co") = none) ∧
    (∀ s : GoString, s ≠ [] → (s.length ≤ 5 ∨ (runes s).length ≤ 5) →
      rejectsWith (isValidEmail s) "invalid email format" = true) := by
  have key : ∀ s : GoString, EmailShape s →
      6 ≤ s.length ∧ 6 ≤ (runes s).length ∧ ∀ b ∈ s, b.val < 0x80 := by
    intro s h
    obtain ⟨h1, h2, _⟩ := emailShape_facts s h
    refine ⟨h1, ?_, h2⟩
    rw [runes_of_ascii s h2, List.length_map]
    exact h1
  refine ⟨fun s h => key s ((isValidEmail_eq_none_iff s).1 h), ⟨by decide, by decide⟩, ?_⟩
  intro s hs hc
  have hn : ¬ EmailShape s := by
    intro h
    obtain ⟨h1, h2, _⟩ := key s h
    omega
  rw [isValidEmail_of_not_shape s hs hn]
  exact rejectsWith_some _ _

/-- C16: the email check does not enforce well-formed domain labels: `a@b..co` (two
consecutive dots in the domain), `a@-.co` (domain beginning with a hyphen), `a@..co` (domain
beginning with a dot) and `.@b.co` (local part made of a dot) are all accepted. -/
theorem email_accepts_malformed_domains :
    isValidEmail (lit "a@b..co") = none ∧
    isValidEmail (lit "a@-.co") = none ∧
    isValidEmail (lit "a@..co") = none ∧
    isValidEmail (lit ".@b.co") = none := by
  refine ⟨by decide, by decide, by decide, by decide⟩

/-- C17: every string `isValidPhone` accepts is accepted by `isValidUsername` and rejected by
`isValidPassword` and by `isValidEmail`; the converse fails, `alice_01` being a username and
not a phone. -/
theorem phone_overlap :
    (∀ s : GoString, isValidPhone s = none →
      isValidUsername s = true ∧ isValidPassword s ≠ none ∧ isValidEmail s ≠ none) ∧
    (isValidPhone (lit "13912345678") = none ∧
      isValidUsername (lit "13912345678") = true) ∧
    (isValidUsername (lit "alice_01") = true ∧ isValidPhone (lit "alice_01") ≠ none) := by
  refine ⟨?_, ⟨by decide, by decide⟩, ⟨by decide, by decide⟩⟩
  intro s h
  obtain ⟨h1, h2⟩ := phoneShape_digits s ((isValidPhone_eq_none_iff s).1 h)
  have notLetter : ∀ b ∈ s, isAsciiLetter b.val = false := by
    intro b hb
    have hd := h2 b hb
    simp only [isAsciiDigit, Bool.and_eq_true, decide_eq_true_eq] at hd
    have e0 : '0'.toNat = 48 := rfl
    have e9 : '9'.toNat = 57 := rfl
    rw [← Bool.not_eq_true]
    intro hl
    simp [isAsciiLetter] at hl
    omega
  refine ⟨?_, ?_, ?_⟩
  · refine (isValidUsername_iff s).2 ⟨⟨by omega, by omega⟩, ?_⟩
    intro b hb
    simp [isWordChar, h2 b hb]
  · intro hp
    obtain ⟨_, ⟨b, hb, hl⟩, _⟩ := (isValidPassword_eq_none_iff s).1 hp
    rw [notLetter b hb] at hl
    exact Bool.false_ne_true hl
  · intro he
    have hs := (isValidEmail_eq_none_iff s).1 he
    obtain ⟨_, ⟨b, hb, hl⟩⟩ := emailShape_ends s hs
    have hm : b ∈ s := List.mem_of_getLast?_eq_some hb
    rw [notLetter b hm] at hl
    exact Bool.false_ne_true hl

end Miniblog
